import Mathlib

/-!
# Verification of the Anki-deck-generator lexical core

A shallow embedding of the lexical-normalization engine of the
Anki-deck-generator repository, together with proofs about it.

Strings are modelled as `List Char` (`Str`).  Rust `HashMap`s are modelled as
association lists, `HashSet`s as `Finset`s, `i32`/`u8` as `Int`/`Nat` with the
source's sentinel constants made explicit.  The `regex` crate is used by the
source only on patterns of a fixed, known shape; each such pattern family is
embedded as a direct matching function on `List Char` whose language is the
language of the generated pattern (for inputs free of regex metacharacters,
which is what the well-formedness hypotheses below express).
-/

namespace AnkiDeck


/-- Strings of the model: lists of characters. -/

abbrev Str := List Char

/-- Whitespace characters, modelling the regex character class `\s` on the
character sets that occur in this program's data (ASCII whitespace plus the
no-break and ideographic spaces). -/

def isWs (c : Char) : Bool :=
  c == ' ' || c == '\t' || c == '\n' || c == '\x0b' || c == '\x0c' || c == '\r' ||
    c == ' ' || c == '　'

/-- The character class `[^\s\[\]]` used by `JapaneseStr::to_kana` /
`JapaneseStr::to_kanji` in `src/lib/japanese.rs`: anything that is neither
whitespace nor a square bracket. -/

def isPlain (c : Char) : Bool := !(isWs c || c == '[' || c == ']')

/-- All characters of a string are plain (no whitespace, no brackets). -/

def PlainStr (s : Str) : Prop := ∀ c ∈ s, isPlain c = true

instance : DecidablePred PlainStr := fun s =>
  inferInstanceAs (Decidable (∀ c ∈ s, isPlain c = true))

/-- One match attempt of the regex `(?<kanji>[^\s\[\]]+?)\[(?<kana>[^\s\[\]]+?)\]`
at the start of `t` (`src/lib/japanese.rs`, `to_kana`/`to_kanji`).  The lazy
`+?` groups stop at the first bracket, so the match is forced: the kanji
capture is the maximal plain run, the next character must be `[`, the kana
capture is the following maximal plain run, and the next character must be
`]`.  Returns `(kanji capture, kana capture, rest)`. -/

def matchCore (t : Str) : Option (Str × Str × Str) :=
  match t.takeWhile isPlain, t.dropWhile isPlain with
  | kj0 :: kjs, '[' :: r2 =>
    match r2.takeWhile isPlain, r2.dropWhile isPlain with
    | kn0 :: kns, ']' :: r4 => some (kj0 :: kjs, kn0 :: kns, r4)
    | _, _ => none
  | _, _ => none

/-- One match attempt of the full pattern ` ?(…)\[(…)\]` at the start of `s`:
the greedy optional space is consumed when present (when the first character
is a space the space-less alternative can never match, since a space is not
plain, so committing to the space is exact). -/

def furiScanStep : Str → Option (Str × Str × Str)
  | [] => none
  | c :: r => if c = ' ' then matchCore r else matchCore (c :: r)

/-- The repeated-replacement loop of `Regex::replace_all` for the furigana
pattern, with an explicit fuel bound (each step consumes at least one
character, so `s.length` fuel always suffices): scan left to right; wherever
the pattern matches, emit `proj kanjiCapture kanaCapture` and continue after
the match, otherwise copy one character and move on
(`src/lib/japanese.rs`, `to_kana`/`to_kanji`). -/

def replaceFuriAux (proj : Str → Str → Str) : Nat → Str → Str
  | 0, _ => []
  | _ + 1, [] => []
  | fuel + 1, c :: rest =>
    match furiScanStep (c :: rest) with
    | some (kj, kn, r) => proj kj kn ++ replaceFuriAux proj fuel r
    | none => c :: replaceFuriAux proj fuel rest

/-- The replacement loop at its sufficient fuel. -/

def replaceFuri (proj : Str → Str → Str) (s : Str) : Str :=
  replaceFuriAux proj s.length s

/-- `JapaneseStr::to_kanji`: strip the bracketed kana (and the separating
space the pattern consumes), keeping the kanji capture. -/

def toKanji (s : Str) : Str := replaceFuri (fun kj _ => kj) s

/-- `JapaneseStr::to_kana`: replace each `kanji[kana]` group (and the
separating space) by the kana capture. -/

def toKana (s : Str) : Str := replaceFuri (fun _ kn => kn) s

/-- The head of a string is "safe" when the scanner cannot open a bracket
group there: after skipping the leading plain run, the next character is not
`[`. -/

def HeadSafe (s : Str) : Prop := (s.dropWhile isPlain).head? ≠ some '['

/-! ## The Reading Aligner (`to_furigana`, `src/lib/japanese.rs`)

The source builds regex pattern strings: one capture group per block, a
block's group being an alternation of its candidate readings (for kanji), a
group `(c)` around the raw character `c` (for non-kanji), or — after the
coalescing retry — a concatenation of non-capturing alternation groups
under one capture.  The characters are interpolated UNESCAPED, so the
generated pattern reads them as regex source.  We embed each block's group
structurally (`pat`: a concatenation of alternation lists of raw
alternative strings) and give the characters their regex reading at match
time: `.` matches any single non-newline character, a character that makes
`Regex::new` fail sends the whole check through its `.ok()?` early return,
and every other character matches itself (`charAtom` fixes the
classification). -/

/-- `HashMap<char, HashSet<String>>` of candidate readings; the set's
(unspecified) iteration order is fixed as the list order. -/

abbrev ReadingsTable := List (Char × List Str)

def lookupReadings (tbl : ReadingsTable) (c : Char) : Option (List Str) :=
  match tbl with
  | [] => none
  | (k, v) :: rest => if k = c then some v else lookupReadings rest c

/-- One block of `to_furigana`: the `(String, bool, String)` tuple of the
source, with the pattern string represented structurally: a concatenation of
alternation groups, each group a list of literal alternatives. -/

structure FuriBlock where
  text : Str
  isKanji : Bool
  pat : List (List Str)
  deriving Repr, DecidableEq

instance : Inhabited FuriBlock := ⟨⟨[], false, []⟩⟩

/-- The per-character blocks of `to_furigana`: a character with a readings
entry becomes a kanji block whose group is the alternation of its readings
(an empty readings set yields the empty pattern `()`, matching only the
empty string); any other character `c` becomes a non-kanji block whose
single alternative is the raw character itself — the source builds
`format!("({})", char)` without escaping, so the alternative is read at
match time under the character's regex interpretation (`charAtom`): a
literal matches itself, `.` matches any single non-newline character, and
an uncompilable character fails the whole check. -/

def mkBlocks (tbl : ReadingsTable) (kanji : Str) : List FuriBlock :=
  kanji.map fun c =>
    match lookupReadings tbl c with
    | some readings =>
      { text := [c], isKanji := true,
        pat := [if readings.isEmpty then [[]] else readings] }
    | none => { text := [c], isKanji := false, pat := [[[c]]] }

/-- Merge a block into the last block of the accumulator, concatenating the
texts and the pattern group lists (`last.0 += &kanji; last.2 += &kana` in the
source; the regex rewrite of the inner `(` to `(?:` under one fresh capture
is exactly group-list concatenation here).  The source unwraps `last_mut()`;
an empty accumulator is unreachable because the first block is always
pushed. -/

def mergeLast : List FuriBlock → FuriBlock → List FuriBlock
  | [], b => [b]
  | [l], b => [{ text := l.text ++ b.text, isKanji := l.isKanji, pat := l.pat ++ b.pat }]
  | x :: y :: rest, b => x :: mergeLast (y :: rest) b

/-- The coalescing fold of `to_furigana`: walk the blocks with the
`preceded_by_kanji` flag, merging each block into the previous one when the
kinds agree and pushing it otherwise. -/

def coalesceFold : Bool → List FuriBlock → List FuriBlock → List FuriBlock
  | _, out, [] => out
  | preceded, out, b :: rest =>
    if b.isKanji = preceded then coalesceFold b.isKanji (mergeLast out b) rest
    else coalesceFold b.isKanji (out ++ [b]) rest

/-- The coalesced blocks: the fold starts with the negation of the first
block's kind (so the first block is pushed) and an empty accumulator. -/

def coalesce (blocks : List FuriBlock) : List FuriBlock :=
  match blocks with
  | [] => []
  | b0 :: _ => coalesceFold (!b0.isKanji) [] blocks

/-- The pattern characters the embedding does not read as self-matching
literals (besides `.`, handled separately).  `(`, `)`, `[`, `\`, `*`, `+`
and `?` make `Regex::new` fail on the pattern `to_furigana` builds — an
unclosed or unopened group or class, a dangling escape, or a repetition
with no operand — so a block containing one sends
`to_furigana_blocks_check` through its `.ok()?` early return before any
match is attempted.  The remaining punctuation (`]`, `{`, `}`, `|`, `^`,
`$`) has context-dependent regex readings; the embedding conservatively
routes it through the same failing path, and no statement below is about
an input containing it. -/

def regexSpecial : List Char :=
  ['(', ')', '[', '\\', '*', '+', '?', ']', '\x7b', '\x7d', '|', '^', '$']

/-- One atom of a block's pattern, as the regex engine reads one
interpolated character: a self-matching literal, or `.`, matching any
single character other than a newline. -/

inductive RAtom where
  | lit (c : Char)
  | dot
  deriving Repr, DecidableEq

/-- The regex reading of one interpolated pattern character: `.` is the
any-character metacharacter, the characters of `regexSpecial` make the
pattern uncompilable, and everything else is a literal. -/

def charAtom (c : Char) : Option RAtom :=
  if c = '.' then some RAtom.dot
  else if c ∈ regexSpecial then none
  else some (RAtom.lit c)

/-- A character whose regex reading is itself, literally. -/

def isRegexLit (c : Char) : Bool := decide (charAtom c = some (RAtom.lit c))

/-- The regex reading of one whole alternative; `none` when some character
makes the pattern uncompilable. -/

def altAtoms : Str → Option (List RAtom)
  | [] => some []
  | c :: rest => (charAtom c).bind fun a => (altAtoms rest).map fun as => a :: as

/-- Whether one atom matches one character of the subject. -/

def atomMatches : RAtom → Char → Bool
  | .lit c0, c => c == c0
  | .dot, c => c != '\n'

/-- Consume one subject character per atom; the capture is the consumed
prefix of the SUBJECT, not the alternative (`.` captures whatever
character it matched). -/

def altConsume : List RAtom → Str → Option (Str × Str)
  | [], s => some ([], s)
  | _ :: _, [] => none
  | a :: as, c :: s =>
    if atomMatches a c then (altConsume as s).map fun pr => (c :: pr.1, pr.2)
    else none

/-- All ways one alternation group can consume a prefix of `s`, in the
alternation's priority order and under the regex reading of each
alternative: `(capture, rest)` pairs.  Alternatives with uncompilable
characters are never reached here: `toFuriganaBlocksCheck` rejects such
block lists up front. -/

def groupMatches (alts : List Str) (s : Str) : List (Str × Str) :=
  alts.filterMap fun a => (altAtoms a).bind fun atoms => altConsume atoms s

/-- All ways a concatenation of alternation groups can consume a prefix of
`s`, in regex backtracking priority order. -/

def patMatches : List (List Str) → Str → List (Str × Str)
  | [], s => [([], s)]
  | g :: gs, s =>
    (groupMatches g s).flatMap fun cr =>
      (patMatches gs cr.2).map fun dr => (cr.1 ++ dr.1, dr.2)

/-- One position of the whole-word pattern: a block's own group, or the
`(.+)` wildcard substituted at the designated boundary. -/

inductive PatSpec where
  | pat (groups : List (List Str))
  | wild
  deriving Repr, DecidableEq

/-- Candidate lengths for the greedy `(.+)` wildcard: longest first, at
least one character. -/

def wildLens (s : Str) : List Nat := ((List.range s.length).map (· + 1)).reverse

/-- Anchored match of the concatenated per-block pattern against the whole
kana string, returning one capture per block; alternatives and wildcard
lengths are explored in regex priority order and the first full match is
taken. -/

def matchSeq : List PatSpec → Str → Option (List Str)
  | [], s => if s = [] then some [] else none
  | .pat g :: rest, s =>
    (patMatches g s).findSome? fun cr =>
      (matchSeq rest cr.2).map fun caps => cr.1 :: caps
  | .wild :: rest, s =>
    (wildLens s).findSome? fun len =>
      (matchSeq rest (s.drop len)).map fun caps => s.take len :: caps

/-- The pattern list for a given wildcard position: block `wildcardIndex-1`
is replaced by `(.+)` (`i + 1 == wildcard_index` in the source). -/

def specsFor (blocks : List FuriBlock) (idx : Nat) : List PatSpec :=
  blocks.enum.map fun ib => if ib.1 + 1 = idx then PatSpec.wild else PatSpec.pat ib.2.pat

/-- The output construction of `to_furigana_blocks_check`: kanji blocks
render as `text[capture]`, prefixed by a space when the preceding block was
not a kanji block; non-kanji blocks render as their literal text. -/

def renderBlocks : Bool → List (FuriBlock × Str) → Str
  | _, [] => []
  | preceded, (b, cap) :: rest =>
    (if b.isKanji then
      (if preceded then [] else [' ']) ++ b.text ++ '[' :: (cap ++ [']'])
     else b.text) ++ renderBlocks b.isKanji rest

/-- Whether a block's pattern compiles: every character of every
alternative has a regex reading. -/

def blockPatValid (b : FuriBlock) : Bool :=
  b.pat.all fun g => g.all fun a => (altAtoms a).isSome

/-- `to_furigana_blocks_check`: wildcard position 0 is tried first and its
pattern concatenates every block's own group, so a block whose pattern
does not compile makes `Regex::new(..).ok()?` return `None` for the whole
check before any match is attempted; otherwise try wildcard positions
`0..=blocks.len()` in ascending order, skipping positions that would
replace a non-kanji block, and return the rendered output of the first
full match. -/

def toFuriganaBlocksCheck (kana : Str) (blocks : List FuriBlock) : Option Str :=
  if blocks.all blockPatValid then
    (List.range (blocks.length + 1)).findSome? fun idx =>
      if idx ≠ 0 ∧ (blocks.getD (idx - 1) default).isKanji = false then
        none
      else
        (matchSeq (specsFor blocks idx) kana).map fun caps =>
          renderBlocks true (blocks.zip caps)
  else none

/-- `to_furigana`: build the per-character blocks, attempt the match, and on
failure coalesce adjacent same-kind runs and retry (an empty spelling makes
the retry unreachable, exactly as `blocks.first()?` does in the source). -/

def toFurigana (tbl : ReadingsTable) (kanji kana : Str) : Option Str :=
  match toFuriganaBlocksCheck kana (mkBlocks tbl kanji) with
  | some out => some out
  | none =>
    match mkBlocks tbl kanji with
    | [] => none
    | _ :: _ => toFuriganaBlocksCheck kana (coalesce (mkBlocks tbl kanji))

/-! ## The data model (`src/lib/entry.rs`)

`HashSet`s become `Finset`s (value sets, no order), `Vec`s stay lists,
`i32` becomes `Int` with the sentinel `i32::MAX` explicit, `u8` becomes
`Nat` with range checks where the source parses. -/

/-- `entry::Example`: a (Japanese, English) sentence pair; stored in a set,
deduplicated by value. -/

structure Example where
  japanese : Str
  english : Str
  deriving DecidableEq

/-- `entry::Glossary`: one sense block with its ordering integer, tag set
and meanings. -/

structure Glossary where
  order : Int
  tags : Finset Str
  meaning : List Str
  deriving DecidableEq

/-- `entry::Word`: one lexicon record. -/

structure Word where
  word_id : Int
  furigana : Str
  glossary : List Glossary
  frequency : Finset Str
  examples : Finset Example
  deriving DecidableEq

/-- `Word::get_all_tags`: the union of the frequency tags and every
glossary entry's tags. -/

def Word.getAllTags (w : Word) : Finset Str :=
  w.glossary.foldl (fun out g => out ∪ g.tags) w.frequency

/-! ## Source entries and the word-conversion pass
(`src/lib/dict/jmnedict/*.rs`, `src/lib/dict/dict_parser.rs`)

A `JmnedictWord` is modelled by the values of its accessors (`kanji()`,
`kana()`, `tags()`, `order()`, `glossary()`, `example()`, `id()`,
`frequency()`): the raw-string parsing done inside the accessors
(`remap_tag`, structured-content flattening) is independent of the
conversion flow the claims are about, so the entry carries the parsed
values directly.  Accumulator `HashMap`s become association lists. -/

/-- `jmnedict_word::JmnedictWord`, by its accessors. -/

structure JmnedictWord where
  kanji : Str
  kana : Str
  tags : Finset Str
  order : Int
  gloss : List Str
  id : Int
  frequency : Finset Str
  examples : List (Str × Str)
  deriving DecidableEq

/-- `jmnedict_frequency::JmnedictFrequency`, by its accessors: the kanji
spelling, the reading from the nested properties, and the `u8` JLPT value
from the frequency data. -/

structure JmnedictFrequency where
  kanji : Str
  kana : Str
  jlpt : Nat
  deriving DecidableEq

/-- `JmnedictFrequency::tags`: the singleton set `{"JLPT-N<level>"}`. -/

def JmnedictFrequency.tags (f : JmnedictFrequency) : Finset Str :=
  {("JLPT-N" ++ Nat.repr f.jlpt).toList}

/-- `kanjidic_kanji::KanjidicEntry`; its `convert_word_data` is `Ok(())`
(a no-op on the word accumulator), so only the character is carried here. -/

structure KanjidicEntry where
  kanji : Char
  deriving DecidableEq

/-- The raw JSON value held by `JmnedictEntry::Unknown`: its first two
items and its pretty-printed form, which is all the error path reads. -/

structure RawRecord where
  item0 : Str
  item1 : Str
  pretty : Str
  deriving DecidableEq

/-- The message built for an unrecognized record
(`jmnedict_entry.rs`): `"Failed to convert: {data[0]} {data[1]}\n{pretty}"`. -/

def unknownMessage (r : RawRecord) : Str :=
  ("Failed to convert: ").toList ++ r.item0 ++ [' '] ++ r.item1 ++ ['\n'] ++ r.pretty

/-- `jmnedict_entry::JmnedictEntry`: the untagged union of source record
shapes, plus the catch-all for unrecognized records. -/

inductive JmnedictEntry where
  | word (w : JmnedictWord)
  | freq (f : JmnedictFrequency)
  | kanji (k : KanjidicEntry)
  | unknown (raw : RawRecord)
  deriving DecidableEq

/-- Whether an entry is the unrecognized catch-all variant. -/

def JmnedictEntry.isUnrecognized : JmnedictEntry → Bool
  | .unknown _ => true
  | _ => false

/-- The word accumulator key: the raw (kanji spelling, kana reading) pair. -/

abbrev WordKey := Str × Str

/-- The word accumulator `HashMap<(String, String), Word>`. -/

abbrev WordsMap := List (WordKey × Word)

/-- `HashMap` lookup on an association list. -/

def alistGet {κ : Type} [DecidableEq κ] {α : Type} : List (κ × α) → κ → Option α
  | [], _ => none
  | (k, v) :: rest, key => if k = key then some v else alistGet rest key

/-- `HashMap` insert on an association list: replace the value when the key
is present, append otherwise. -/

def alistPut {κ : Type} [DecidableEq κ] {α : Type} : List (κ × α) → κ → α → List (κ × α)
  | [], key, v => [(key, v)]
  | (k, v0) :: rest, key, v =>
    if k = key then (k, v) :: rest else (k, v0) :: alistPut rest key v

/-- The examples of a word entry as a set (`HashSet<Example>`). -/

def exampleFinset (l : List (Str × Str)) : Finset Example :=
  (l.map fun p => Example.mk p.1 p.2).toFinset

/-- The display spelling of a new record: the aligner's output, or the
unverified fallback `kanji[kana]` when alignment fails. -/

def displaySpelling (tbl : ReadingsTable) (kanji kana : Str) : Str :=
  match toFurigana tbl kanji kana with
  | some furigana => furigana
  | none => kanji ++ '[' :: (kana ++ [']'])

/-- `JmnedictWord::convert_word_data`: if the raw key is present, overwrite
the identifier, push the new glossary entry and re-sort the glossary list by
ascending order, and union-merge frequency tags and examples; otherwise
insert a fresh record under the aligned (or fallback) display spelling. -/

def JmnedictWord.convertWordData (e : JmnedictWord) (tbl : ReadingsTable)
    (words : WordsMap) : WordsMap :=
  let glossary : Glossary := ⟨e.order, e.tags, e.gloss⟩
  match alistGet words (e.kanji, e.kana) with
  | some word =>
    alistPut words (e.kanji, e.kana)
      { word with
        word_id := e.id
        glossary := List.insertionSort (fun a b => a.order ≤ b.order)
          (word.glossary ++ [glossary])
        frequency := word.frequency ∪ e.frequency
        examples := word.examples ∪ exampleFinset e.examples }
  | none =>
    alistPut words (e.kanji, e.kana)
      ⟨e.id, displaySpelling tbl e.kanji e.kana, [glossary], e.frequency,
        exampleFinset e.examples⟩

/-- `JmnedictFrequency::convert_word_data`: if the raw key is present,
union-merge the JLPT tag into the frequency tags; otherwise insert a fresh
record with identifier `0`, no glossary and no examples. -/

def JmnedictFrequency.convertWordData (f : JmnedictFrequency)
    (tbl : ReadingsTable) (words : WordsMap) : WordsMap :=
  match alistGet words (f.kanji, f.kana) with
  | some word =>
    alistPut words (f.kanji, f.kana) { word with frequency := word.frequency ∪ f.tags }
  | none =>
    alistPut words (f.kanji, f.kana)
      ⟨0, displaySpelling tbl f.kanji f.kana, [], f.tags, ∅⟩

/-- `JmnedictEntry::convert_word_data`: dispatch on the record shape; the
unrecognized variant returns the error message carrying the raw record. -/

def JmnedictEntry.convertWordData (tbl : ReadingsTable) (words : WordsMap) :
    JmnedictEntry → Except Str WordsMap
  | .word w => .ok (w.convertWordData tbl words)
  | .freq f => .ok (f.convertWordData tbl words)
  | .kanji _ => .ok words
  | .unknown raw => .error (unknownMessage raw)

/-- The entry loop of `dict_parser::convert_word_data`: each entry updates
the accumulator in turn; an `Err` prints the message and panics, modelled as
an immediate `Except.error` carrying that message (the progress logging is
I/O and is not modelled). -/

def convertWordDataLoop (tbl : ReadingsTable) :
    List JmnedictEntry → WordsMap → Except Str WordsMap
  | [], words => .ok words
  | e :: rest, words =>
    match e.convertWordData tbl words with
    | .error msg => .error msg
    | .ok words' => convertWordDataLoop tbl rest words'

/-- The final glossary sort of `dict_parser::convert_word_data`:
`sort_unstable_by_key(|d| -d.order)`, i.e. descending by order. -/

def sortGlossaries (m : WordsMap) : WordsMap :=
  m.map fun kw =>
    (kw.1, { kw.2 with
      glossary := List.insertionSort (fun a b => b.order ≤ a.order) kw.2.glossary })

/-- The final re-keying of `dict_parser::convert_word_data`: collect the
records into a map keyed by display spelling (a later record with the same
spelling silently overwrites an earlier one, as `HashMap::collect` does). -/

def rekeyByFurigana {κ : Type} (m : List (κ × Word)) : List (Str × Word) :=
  m.foldl (fun out kw => alistPut out kw.2.furigana kw.2) []

/-- `dict_parser::convert_word_data`: run the entry loop on an empty
accumulator, sort each record's glossary, and re-key by display spelling. -/

def convertWordData (tbl : ReadingsTable) (data : List JmnedictEntry) :
    Except Str (List (Str × Word)) :=
  match convertWordDataLoop tbl data [] with
  | .error msg => .error msg
  | .ok words => .ok (rekeyByFurigana (sortGlossaries words))

/-! ## Canonicalization (`filter_overlapping`, `src/bin/dictionary.rs`) -/

/-- `Ord::cmp` on `Nat`. -/

def cmpNat (a b : Nat) : Ordering :=
  if a < b then .lt else if a = b then .eq else .gt

/-- `Ord::cmp` on `Int`. -/

def cmpInt (a b : Int) : Ordering :=
  if a < b then .lt else if a = b then .eq else .gt

/-- The tag parse of `get_newsnk` (`^news(\d+)k$` with a `u8` parse): the
digits between `news` and a final `k`, when they fit in a `u8`. -/

def parseNewsTag (t : Str) : Option Nat :=
  match t with
  | 'n' :: 'e' :: 'w' :: 's' :: rest =>
    if rest.getLast? = some 'k' ∧ rest.dropLast ≠ [] ∧ rest.dropLast.all (·.isDigit) then
      let v := rest.dropLast.foldl (fun out c => out * 10 + (c.toNat - '0'.toNat)) 0
      if v ≤ 255 then some v else none
    else none
  | _ => none

/-- `get_newsnk`: the minimum parsed `news<n>k` rank over all tags, as an
order-independent infimum (`None` when no tag parses). -/

def newsInf (note : Word) : WithTop Nat :=
  note.getAllTags.inf fun t => (parseNewsTag t).elim ⊤ (fun n => (n : WithTop Nat))

/-- `WithTop Nat` is definitionally `Option Nat`. -/

def withTopToOption (x : WithTop Nat) : Option Nat := x

/-- `get_newsnk` as the source returns it. -/

def getNewsnk (note : Word) : Option Nat := withTopToOption (newsInf note)

/-- `get_jlpt_level`: the first JLPT tag found, checked from N1 down to N5. -/

def getJlptLevel (note : Word) : Option Nat :=
  let tags := note.getAllTags
  if ("JLPT-N1").toList ∈ tags then some 1
  else if ("JLPT-N2").toList ∈ tags then some 2
  else if ("JLPT-N3").toList ∈ tags then some 3
  else if ("JLPT-N4").toList ∈ tags then some 4
  else if ("JLPT-N5").toList ∈ tags then some 5
  else none

/-- `get_jlpt_level(..).unwrap_or_default()`: a record with no JLPT tag
ranks `0`. -/

def jlptRank (w : Word) : Nat := (getJlptLevel w).getD 0

/-- `get_newsnk(..).unwrap_or(u8::MAX)`: a record with no news tag ranks
`255`. -/

def newsRank (w : Word) : Nat := (getNewsnk w).getD 255

/-- The minimum glossary order with the `i32::MAX` sentinel
(`glossary.iter().map(|g| g.order).min().unwrap_or(i32::MAX)`). -/

def minGlossOrder (w : Word) : Int :=
  ((w.glossary.map Glossary.order).min?).getD 2147483647

/-- The five-criterion comparator of `filter_overlapping`: whether the new
record `value1` replaces the incumbent `value2`.  The tuple match is
transcribed verbatim: note that the `news` comparison swaps its arguments
while the other four compare `value1` against `value2`. -/

def overlapReplaces (value2 value1 : Word) : Bool :=
  let jlpt := cmpNat (jlptRank value1) (jlptRank value2)
  let news := cmpNat (newsRank value2) (newsRank value1)
  let exmpl := cmpNat value1.examples.card value2.examples.card
  let len := cmpNat value1.glossary.length value2.glossary.length
  let freq := cmpInt (minGlossOrder value1) (minGlossOrder value2)
  match jlpt, news, exmpl, len, freq with
  | .gt, _, _, _, _ => true
  | .eq, .gt, _, _, _ => true
  | .eq, .eq, .gt, _, _ => true
  | .eq, .eq, .eq, .gt, _ => true
  | .eq, .eq, .eq, .eq, .gt => true
  | _, _, _, _, _ => false

/-- The fold of `filter_overlapping` over the incoming records: re-key each
record by its kanji-only spelling (`key.to_kanji()`); on a collision the
comparator decides whether the new record replaces the incumbent. -/

def filterOverlappingFold : List (Str × Word) → List (Str × Word) → List (Str × Word)
  | [], out => out
  | (key, value1) :: rest, out =>
    let k := toKanji key
    match alistGet out k with
    | some value2 =>
      if overlapReplaces value2 value1 then
        filterOverlappingFold rest (alistPut out k value1)
      else
        filterOverlappingFold rest out
    | none => filterOverlappingFold rest (out ++ [(k, value1)])

/-- `filter_overlapping`: fold the records through the comparator keyed by
kanji-only spelling, then re-key the survivors by their display spelling.
The `HashMap` iteration order of the source is unspecified; the input list
order stands for one such order. -/

def filterOverlapping (words : List (Str × Word)) : List (Str × Word) :=
  rekeyByFurigana (filterOverlappingFold words [])

/-! ## The inflection-pattern generator (`src/bin/example.rs`)

`get_find_regex` produces a regex string.  Every branch except the four
fixed irregular ones has the shape `stem(?:alt1|alt2|…)`, optionally led by
` ?`; that family is embedded as `FindRegex.stemAlts` with a direct
unanchored matcher.  The four fixed irregular branches return word-independent
pattern texts, carried verbatim as `FindRegex.rawText` (no claim needs
their matching semantics).
-/

/-- The godan suffix alternation for verbs ending in `う` (`get_find_regex`). -/

def godanU : List Str :=
  [("らなかったでしょう").toList,
   ("っていませんでした").toList,
   ("らなかっただろう").toList,
   ("りませんでしたら").toList,
   ("らないでください").toList,
   ("りませんでした").toList,
   ("らないでしょう").toList,
   ("っていました").toList,
   ("っていません").toList,
   ("らなかったら").toList,
   ("ったでしょう").toList,
   ("らないだろう").toList,
   ("ってください").toList,
   ("らなければ").toList,
   ("らなかった").toList,
   ("られません").toList,
   ("らせません").toList,
   ("るでしょう").toList,
   ("っています").toList,
   ("っただろう").toList,
   ("りましたら").toList,
   ("りましょう").toList,
   ("っていた").toList,
   ("っている").toList,
   ("らせない").toList,
   ("らせます").toList,
   ("られない").toList,
   ("りました").toList,
   ("りません").toList,
   ("れません").toList,
   ("るだろう").toList,
   ("られます").toList,
   ("られない").toList,
   ("られます").toList,
   ("らせる").toList,
   ("れます").toList,
   ("られる").toList,
   ("ったら").toList,
   ("らない").toList,
   ("ります").toList,
   ("れない").toList,
   ("るな").toList,
   ("れば").toList,
   ("ろう").toList,
   ("った").toList,
   ("れる").toList,
   ("れ").toList,
   ("る").toList]

/-- The godan suffix alternation for verbs ending in `く` (`get_find_regex`). -/

def godanK : List Str :=
  [("いていませんでした").toList,
   ("かなかったでしょう").toList,
   ("きませんでしたら").toList,
   ("かなかっただろう").toList,
   ("かないでください").toList,
   ("かないでしょう").toList,
   ("きませんでした").toList,
   ("いたでしょう").toList,
   ("いていました").toList,
   ("いてください").toList,
   ("かないだろう").toList,
   ("いていません").toList,
   ("かなかったら").toList,
   ("くでしょう").toList,
   ("いています").toList,
   ("かなければ").toList,
   ("かなかった").toList,
   ("かれません").toList,
   ("いただろう").toList,
   ("かせません").toList,
   ("きましょう").toList,
   ("きましたら").toList,
   ("けません").toList,
   ("いている").toList,
   ("かせない").toList,
   ("いていた").toList,
   ("きました").toList,
   ("くだろう").toList,
   ("きません").toList,
   ("かれます").toList,
   ("かせます").toList,
   ("かれない").toList,
   ("いたら").toList,
   ("けます").toList,
   ("けない").toList,
   ("かせる").toList,
   ("かれる").toList,
   ("きます").toList,
   ("かない").toList,
   ("いた").toList,
   ("こう").toList,
   ("ける").toList,
   ("くな").toList,
   ("けば").toList,
   ("く").toList,
   ("け").toList]

/-- The godan suffix alternation for verbs ending in `す` (`get_find_regex`). -/

def godanS : List Str :=
  [("していませんでした").toList,
   ("さなかったでしょう").toList,
   ("しませんでしたら").toList,
   ("さなかっただろう").toList,
   ("さないでください").toList,
   ("しませんでした").toList,
   ("さないでしょう").toList,
   ("してください").toList,
   ("したでしょう").toList,
   ("していません").toList,
   ("さないだろう").toList,
   ("さなかったら").toList,
   ("していました").toList,
   ("しただろう").toList,
   ("すでしょう").toList,
   ("さなかった").toList,
   ("しています").toList,
   ("されません").toList,
   ("しましょう").toList,
   ("さなければ").toList,
   ("させません").toList,
   ("しましたら").toList,
   ("せません").toList,
   ("されます").toList,
   ("されない").toList,
   ("していた").toList,
   ("すだろう").toList,
   ("しました").toList,
   ("しません").toList,
   ("している").toList,
   ("させます").toList,
   ("さない").toList,
   ("せます").toList,
   ("させる").toList,
   ("さない").toList,
   ("される").toList,
   ("します").toList,
   ("したら").toList,
   ("せない").toList,
   ("せば").toList,
   ("そう").toList,
   ("すな").toList,
   ("した").toList,
   ("せる").toList,
   ("せ").toList,
   ("す").toList]

/-- The godan suffix alternation for verbs ending in `つ` (`get_find_regex`). -/

def godanT : List Str :=
  [("っていませんでした").toList,
   ("たなかったでしょう").toList,
   ("たないでください").toList,
   ("ちませんでしたら").toList,
   ("たなかっただろう").toList,
   ("たないでしょう").toList,
   ("ちませんでした").toList,
   ("たなかったら").toList,
   ("っていません").toList,
   ("ったでしょう").toList,
   ("ってください").toList,
   ("っていました").toList,
   ("たないだろう").toList,
   ("っただろう").toList,
   ("ちましたら").toList,
   ("たれません").toList,
   ("たなければ").toList,
   ("たせません").toList,
   ("たなかった").toList,
   ("ちましょう").toList,
   ("つでしょう").toList,
   ("っています").toList,
   ("たれます").toList,
   ("ちました").toList,
   ("たれない").toList,
   ("てません").toList,
   ("たせます").toList,
   ("つだろう").toList,
   ("っている").toList,
   ("ちません").toList,
   ("たせない").toList,
   ("っていた").toList,
   ("てます").toList,
   ("ちます").toList,
   ("たせる").toList,
   ("たれる").toList,
   ("たない").toList,
   ("てない").toList,
   ("ったら").toList,
   ("つな").toList,
   ("てば").toList,
   ("った").toList,
   ("てる").toList,
   ("とう").toList,
   ("て").toList,
   ("つ").toList]

/-- The godan suffix alternation for verbs ending in `ぬ` (`get_find_regex`). -/

def godanN : List Str :=
  [("んでいませんでした").toList,
   ("ななかったでしょう").toList,
   ("にませんでしたら").toList,
   ("ななかっただろう").toList,
   ("なないでください").toList,
   ("なないでしょう").toList,
   ("にませんでした").toList,
   ("んでいません").toList,
   ("ななかったら").toList,
   ("んでください").toList,
   ("なないだろう").toList,
   ("んでいました").toList,
   ("んだでしょう").toList,
   ("なれません").toList,
   ("にましたら").toList,
   ("んでいます").toList,
   ("ななければ").toList,
   ("なせません").toList,
   ("ななかった").toList,
   ("にましょう").toList,
   ("んだだろう").toList,
   ("ぬでしょう").toList,
   ("にました").toList,
   ("んでいる").toList,
   ("なれます").toList,
   ("なれない").toList,
   ("ねません").toList,
   ("なせます").toList,
   ("んでいた").toList,
   ("なせない").toList,
   ("にません").toList,
   ("ぬだろう").toList,
   ("ねます").toList,
   ("なない").toList,
   ("なれる").toList,
   ("ねない").toList,
   ("んだら").toList,
   ("にます").toList,
   ("なせる").toList,
   ("ねば").toList,
   ("んだ").toList,
   ("ぬな").toList,
   ("のう").toList,
   ("ねる").toList,
   ("ぬ").toList,
   ("ね").toList]

/-- The godan suffix alternation for verbs ending in `む` (`get_find_regex`). -/

def godanM : List Str :=
  [("んでいませんでした").toList,
   ("まなかったでしょう").toList,
   ("みませんでしたら").toList,
   ("まなかっただろう").toList,
   ("まないでください").toList,
   ("まないでしょう").toList,
   ("みませんでした").toList,
   ("んでいません").toList,
   ("まなかったら").toList,
   ("んでください").toList,
   ("まないだろう").toList,
   ("んでいました").toList,
   ("んだでしょう").toList,
   ("まれません").toList,
   ("みましたら").toList,
   ("んでいます").toList,
   ("まなければ").toList,
   ("ませません").toList,
   ("まなかった").toList,
   ("みましょう").toList,
   ("んだだろう").toList,
   ("むでしょう").toList,
   ("みました").toList,
   ("んでいる").toList,
   ("まれます").toList,
   ("まれない").toList,
   ("めません").toList,
   ("ませます").toList,
   ("んでいた").toList,
   ("ませない").toList,
   ("みません").toList,
   ("むだろう").toList,
   ("めます").toList,
   ("まない").toList,
   ("まれる").toList,
   ("めない").toList,
   ("んだら").toList,
   ("みます").toList,
   ("ませる").toList,
   ("めば").toList,
   ("んだ").toList,
   ("むな").toList,
   ("もう").toList,
   ("める").toList,
   ("む").toList,
   ("め").toList]

/-- The godan suffix alternation for verbs ending in `る` (`get_find_regex`). -/

def godanR : List Str :=
  [("っていませんでした").toList,
   ("らなかったでしょう").toList,
   ("りませんでしたら").toList,
   ("らなかっただろう").toList,
   ("らないでください").toList,
   ("らないでしょう").toList,
   ("りませんでした").toList,
   ("ったでしょう").toList,
   ("っていました").toList,
   ("ってください").toList,
   ("らないだろう").toList,
   ("っていません").toList,
   ("らなかったら").toList,
   ("るでしょう").toList,
   ("っています").toList,
   ("らなければ").toList,
   ("らなかった").toList,
   ("られません").toList,
   ("っただろう").toList,
   ("らせません").toList,
   ("りましょう").toList,
   ("りましたら").toList,
   ("れません").toList,
   ("っている").toList,
   ("らせない").toList,
   ("っていた").toList,
   ("りました").toList,
   ("るだろう").toList,
   ("りません").toList,
   ("られます").toList,
   ("らせます").toList,
   ("られない").toList,
   ("ったら").toList,
   ("れます").toList,
   ("れない").toList,
   ("らせる").toList,
   ("られる").toList,
   ("ります").toList,
   ("らない").toList,
   ("った").toList,
   ("ろう").toList,
   ("れる").toList,
   ("るな").toList,
   ("れば").toList,
   ("る").toList,
   ("れ").toList]

/-- The godan suffix alternation for verbs ending in `ぐ` (`get_find_regex`). -/

def godanG : List Str :=
  [("いでいませんでした").toList,
   ("がなかったでしょう").toList,
   ("ぎませんでしたら").toList,
   ("がなかっただろう").toList,
   ("がないでください").toList,
   ("がないでしょう").toList,
   ("ぎませんでした").toList,
   ("いだでしょう").toList,
   ("いでいました").toList,
   ("いでください").toList,
   ("がないだろう").toList,
   ("いでいません").toList,
   ("がなかったら").toList,
   ("ぐでしょう").toList,
   ("いでいます").toList,
   ("がなかった").toList,
   ("がなければ").toList,
   ("がせません").toList,
   ("がれません").toList,
   ("ぎましょう").toList,
   ("いだだろう").toList,
   ("ぎましたら").toList,
   ("がせます").toList,
   ("げません").toList,
   ("いでいる").toList,
   ("いでいた").toList,
   ("ぎました").toList,
   ("ぐだろう").toList,
   ("ぎません").toList,
   ("がれます").toList,
   ("がれない").toList,
   ("げます").toList,
   ("いだら").toList,
   ("がない").toList,
   ("がせる").toList,
   ("がれる").toList,
   ("げない").toList,
   ("ぎます").toList,
   ("がない").toList,
   ("いだ").toList,
   ("げる").toList,
   ("ぐな").toList,
   ("げば").toList,
   ("ぐ").toList,
   ("ご").toList,
   ("げ").toList]

/-- The godan suffix alternation for verbs ending in `づ` (`get_find_regex`). -/

def godanD : List Str :=
  [("っていませんでした").toList,
   ("たなかったでしょう").toList,
   ("たないでください").toList,
   ("ちませんでしたら").toList,
   ("たなかっただろう").toList,
   ("たないでしょう").toList,
   ("ちませんでした").toList,
   ("たなかったら").toList,
   ("っていません").toList,
   ("ったでしょう").toList,
   ("ってください").toList,
   ("っていました").toList,
   ("たないだろう").toList,
   ("っただろう").toList,
   ("ちましたら").toList,
   ("たれません").toList,
   ("たなければ").toList,
   ("たせません").toList,
   ("たなかった").toList,
   ("ちましょう").toList,
   ("つでしょう").toList,
   ("っています").toList,
   ("たれます").toList,
   ("ちました").toList,
   ("たれない").toList,
   ("てません").toList,
   ("たせます").toList,
   ("つだろう").toList,
   ("っている").toList,
   ("ちません").toList,
   ("たせない").toList,
   ("っていた").toList,
   ("てます").toList,
   ("ちます").toList,
   ("たせる").toList,
   ("たれる").toList,
   ("たない").toList,
   ("てない").toList,
   ("ったら").toList,
   ("つな").toList,
   ("てば").toList,
   ("った").toList,
   ("てる").toList,
   ("とう").toList,
   ("て").toList,
   ("つc").toList]

/-- The godan suffix alternation for verbs ending in `ぶ` (`get_find_regex`). -/

def godanB : List Str :=
  [("んでいませんでした").toList,
   ("ばなかったでしょう").toList,
   ("びませんでしたら").toList,
   ("ばなかっただろう").toList,
   ("ばないでください").toList,
   ("ばないでしょう").toList,
   ("びませんでした").toList,
   ("んでいません").toList,
   ("ばなかったら").toList,
   ("んでください").toList,
   ("ばないだろう").toList,
   ("んでいました").toList,
   ("んだでしょう").toList,
   ("ばれません").toList,
   ("びましたら").toList,
   ("んでいます").toList,
   ("ばなければ").toList,
   ("ばせません").toList,
   ("ばなかった").toList,
   ("びましょう").toList,
   ("ぶでしょう").toList,
   ("んだだろう").toList,
   ("びました").toList,
   ("んでいる").toList,
   ("ばれない").toList,
   ("ばれます").toList,
   ("んでいた").toList,
   ("べません").toList,
   ("ばせます").toList,
   ("びません").toList,
   ("ぶだろう").toList,
   ("ばない").toList,
   ("べます").toList,
   ("ばれる").toList,
   ("べない").toList,
   ("んだら").toList,
   ("ばせる").toList,
   ("びます").toList,
   ("ばない").toList,
   ("べば").toList,
   ("んだ").toList,
   ("ぶな").toList,
   ("べる").toList,
   ("ぶ").toList,
   ("ぼ").toList,
   ("べ").toList]

/-- The い-adjective suffix alternation (`get_find_regex`). -/

def iAdjectiveSuffixes : List Str :=
  [("くありませんでした").toList,
   ("くないでしょう").toList,
   ("くないだろう").toList,
   ("くありません").toList,
   ("くなかった").toList,
   ("いでしょう").toList,
   ("かったです").toList,
   ("くなければ").toList,
   ("いだろう").toList,
   ("くない").toList,
   ("いです").toList,
   ("かった").toList,
   ("ければ").toList,
   ("い").toList]

/-- The な-adjective suffix alternation (`get_find_regex`); note the final empty alternative. -/

def naAdjectiveSuffixes : List Str :=
  [("ではありませんでした").toList,
   ("ではありません").toList,
   ("ではなかった").toList,
   ("ではない").toList,
   ("だった").toList,
   ("でした").toList,
   ("であれ").toList,
   ("です").toList,
   ("なれ").toList,
   ("だろ").toList,
   ("では").toList,
   ("なら").toList,
   ("なり").toList,
   ("なる").toList,
   ("で").toList,
   ("だ").toList,
   ("に").toList,
   ("な").toList,
   ("").toList]

/-- The ichidan (weak/vowel-stem) suffix alternation (`get_find_regex`). -/

def ichidanSuffixes : List Str :=
  [("ていませんでした").toList,
   ("なかったでしょう").toList,
   ("ませんでしたら").toList,
   ("なかっただろう").toList,
   ("ないでください").toList,
   ("ないでしょう").toList,
   ("ませんでした").toList,
   ("ないだろう").toList,
   ("てください").toList,
   ("させません").toList,
   ("たでしょう").toList,
   ("ていました").toList,
   ("ていません").toList,
   ("なかったら").toList,
   ("られません").toList,
   ("られません").toList,
   ("るでしょう").toList,
   ("られます").toList,
   ("られない").toList,
   ("させない").toList,
   ("ています").toList,
   ("るだろう").toList,
   ("ただろう").toList,
   ("なかった").toList,
   ("ましょう").toList,
   ("なければ").toList,
   ("られます").toList,
   ("られない").toList,
   ("させます").toList,
   ("ましたら").toList,
   ("ている").toList,
   ("ていた").toList,
   ("ません").toList,
   ("ました").toList,
   ("させる").toList,
   ("たろう").toList,
   ("られる").toList,
   ("られる").toList,
   ("れば").toList,
   ("ない").toList,
   ("たら").toList,
   ("よう").toList,
   ("ます").toList,
   ("るな").toList,
   ("る").toList,
   ("た").toList,
   ("ろ").toList]

/-- The fixed regex text of the `IxAdjective` branch of `get_find_regex`, kept verbatim (its matching semantics are not needed by any claim). -/

def ixAdjectiveRegexText : Str :=
  ("(?: ?良[よ]|良|よ)くありませんでした|(?: ?良[よ]|良|よ)くありません|(?: ?良[よ]|良|よ)くなかった|(?: ?良[よ]|良|よ)かったです|(?: ?良[よ]|良|よ)ければ|(?: ?良[よ]|良|よ)かった|(?: ?良[よ]|良|よ)くない|(?: ?良[よ]|良|よ)くて|いいです|いい").toList

/-- The fixed regex text of the `Aru` branch of `get_find_regex`, kept verbatim (its matching semantics are not needed by any claim). -/

def aruRegexText : Str :=
  ("(?: ?有[あ]|有|あ)|(?: ?有[あ]|有|あ)りませんでした|(?: ?有[あ]|有|あ)ってください|ないでください|(?: ?有[あ]|有|あ)らせません|(?: ?有[あ]|有|あ)られません|(?: ?有[あ]|有|あ)りましょう|(?: ?有[あ]|有|あ)りました|(?: ?有[あ]|有|あ)られない|(?: ?有[あ]|有|あ)られます|(?: ?有[あ]|有|あ)らせない|(?: ?有[あ]|有|あ)らせます|(?: ?有[あ]|有|あ)りません|なかったら|(?: ?有[あ]|有|あ)れません|なかった|(?: ?有[あ]|有|あ)れない|(?: ?有[あ]|有|あ)らせる|(?: ?有[あ]|有|あ)られる|(?: ?有[あ]|有|あ)れます|(?: ?有[あ]|有|あ)ります|なければ|(?: ?有[あ]|有|あ)ったら|(?: ?有[あ]|有|あ)って|なくて|(?: ?有[あ]|有|あ)ろう|(?: ?有[あ]|有|あ)るな|(?: ?有[あ]|有|あ)れば|(?: ?有[あ]|有|あ)った|(?: ?有[あ]|有|あ)れる|(?: ?有[あ]|有|あ)れ|(?: ?有[あ]|有|あ)る|ない").toList

/-- The fixed regex text of the `Kuru` branch of `get_find_regex`, kept verbatim (its matching semantics are not needed by any claim). -/

def kuruRegexText : Str :=
  ("(?: ?来[く]|来|く)なかったでしょう|(?: ?来[く]|来|く)なかっただろう|(?: ?来[く]|来|く)ませんでしたら|(?: ?来[く]|来|く)ないでください|(?: ?来[く]|来|く)ないでしょう|(?: ?来[く]|来|く)ませんでした|(?: ?来[く]|来|く)させません|(?: ?来[く]|来|く)るでしょう|(?: ?来[く]|来|く)ませんなら|(?: ?来[く]|来|く)てください|(?: ?来[く]|来|く)なかったら|(?: ?来[く]|来|く)たでしょう|(?: ?来[く]|来|く)られません|(?: ?来[く]|来|く)ないだろう|(?: ?来[く]|来|く)させない|(?: ?来[く]|来|く)なかった|(?: ?来[く]|来|く)させます|(?: ?来[く]|来|く)なければ|(?: ?来[く]|来|く)られない|(?: ?来[く]|来|く)られます|(?: ?来[く]|来|く)ますれば|(?: ?来[く]|来|く)ましたら|(?: ?来[く]|来|く)られる|(?: ?来[く]|来|く)させる|(?: ?来[く]|来|く)ました|(?: ?来[く]|来|く)られる|(?: ?来[く]|来|く)ません|きませば|(?: ?来[く]|来|く)れば|(?: ?来[く]|来|く)ない|(?: ?来[く]|来|く)るな|(?: ?来[く]|来|く)よう|(?: ?来[く]|来|く)たら|(?: ?来[く]|来|く)ます|(?: ?来[く]|来|く)い|(?: ?来[く]|来|く)る|(?: ?来[く]|来|く)た").toList

/-- The fixed regex text of the `Suru` branch of `get_find_regex`, kept verbatim (its matching semantics are not needed by any claim). -/

def suruRegexText : Str :=
  ("していませんでした|しなかっただろう|しないでください|しなかたでしょう|しませんでしたら|しませんでした|しないでしょう|[為す]るでしょう|しましたろう|していません|しませんなら|しないだろう|しなかったら|していました|してください|しなければ|しましたら|しなかった|しますれば|[為す]るだろう|しましょう|できません|しています|しただろう|したろう|しました|できます|しません|しませば|できない|したら|させる|される|できる|[為す]れば|[為す]るな|します|しよう|しない|[為す]る|した|しろ").toList

/-- An Anki note as `get_find_regex`/`get_conjugation_type` read it: the
target word (`note.fields["1 Word"]`) and the note's tag list. -/

structure AnkiNote where
  word : Str
  tags : List Str
  deriving DecidableEq

/-- `ConjugationType` of `example.rs`. -/

inductive ConjugationType where
  | noInflection
  | iAdjective
  | ixAdjective
  | naAdjective
  | ichidan
  | godan
  | aru
  | kuru
  | suru
  deriving DecidableEq, Repr

/-- The recognized inflectable final characters (`get_conjugation_type`). -/

def inflectableEndings : List Char :=
  ['い', 'う', 'く', 'す', 'つ', 'ぬ', 'ふ', 'む', 'る', 'ぐ', 'ず', 'づ', 'ぶ', 'ぷ']

/-- `get_conjugation_type`: a word whose final character is not a recognized
inflectable ending is never inflected; otherwise the first matching tag, in
fixed priority order, decides the class.  (The source unwraps the last
character and panics on an empty word; the empty word is mapped to the
non-inflecting class here and never arises in the claims.) -/

def getConjugationType (note : AnkiNote) : ConjugationType :=
  match note.word.getLast? with
  | none => .noInflection
  | some verbEnd =>
    if verbEnd ∉ inflectableEndings then .noInflection
    else if note.tags.any (· = ("adj-いx").toList) then .ixAdjective
    else if note.tags.any (· = ("adj-い").toList) then .iAdjective
    else if note.tags.any (· = ("adj-な").toList) then .naAdjective
    else if note.tags.any (· = ("v5る-i").toList) then .aru
    else if note.tags.any (· = ("vくる").toList) then .kuru
    else if note.tags.any (fun t => t = ("vする-i").toList ∨ t = ("vする-s").toList) then .suru
    else if note.tags.any (fun t => ("v5").toList <+: t) then .godan
    else if note.tags.any (fun t => ("v1").toList <+: t) then .ichidan
    else .noInflection

/-- The bracket escape at the top of `get_find_regex`
(`replace_all("[\[\]]", "\\$0")`). -/

def escapeBrackets : Str → Str
  | [] => []
  | c :: rest =>
    if c = '[' ∨ c = ']' then '\\' :: c :: escapeBrackets rest
    else c :: escapeBrackets rest

/-- The shape of a pattern produced by `get_find_regex`. -/

inductive FindRegex where
  /-- `stem(?:alt1|alt2|…)`, optionally preceded by ` ?`. -/
  | stemAlts (optSpace : Bool) (stem : Str) (alts : List Str)
  /-- One of the four fixed irregular pattern texts, verbatim. -/
  | rawText (pattern : Str)
  deriving DecidableEq

/-- `get_find_regex`: escape brackets in the word, split off the final
character, and build the class's pattern.  The godan `ふ`/`ず`/`ぷ` arms and
the catch-all arm panic in the source (`UnsupportedInflectionEnding`), as
does the unwrap on an empty word; both are modelled as `none`. -/

def getFindRegex (note : AnkiNote) : Option FindRegex :=
  let word := escapeBrackets note.word
  match word.getLast? with
  | none => none
  | some e =>
    let stem := word.dropLast
    match getConjugationType note with
    | .noInflection => some (.stemAlts true word [[]])
    | .iAdjective => some (.stemAlts false stem iAdjectiveSuffixes)
    | .ixAdjective => some (.rawText ixAdjectiveRegexText)
    | .naAdjective => some (.stemAlts false word naAdjectiveSuffixes)
    | .ichidan => some (.stemAlts false stem ichidanSuffixes)
    | .godan =>
      match e with
      | 'う' => some (.stemAlts true stem godanU)
      | 'く' => some (.stemAlts true stem godanK)
      | 'す' => some (.stemAlts true stem godanS)
      | 'つ' => some (.stemAlts true stem godanT)
      | 'ぬ' => some (.stemAlts true stem godanN)
      | 'む' => some (.stemAlts true stem godanM)
      | 'る' => some (.stemAlts true stem godanR)
      | 'ぐ' => some (.stemAlts true stem godanG)
      | 'づ' => some (.stemAlts true stem godanD)
      | 'ぶ' => some (.stemAlts true stem godanB)
      | _ => none
    | .aru => some (.rawText aruRegexText)
    | .kuru => some (.rawText kuruRegexText)
    | .suru => some (.rawText suruRegexText)

/-- Whether `stem(?:alt1|…)` matches at the very start of `s`. -/

def stemAltsHeadMatch (stem : Str) (alts : List Str) (s : Str) : Bool :=
  alts.any fun a => (stem ++ a).isPrefixOf s

/-- Unanchored `Regex::is_match` for the `stemAlts` pattern family: some
position of `s` starts a match, the optional leading ` ?` consuming a space
when one is present there. -/

def stemAltsSearch (optSpace : Bool) (stem : Str) (alts : List Str) : Str → Bool
  | [] => stemAltsHeadMatch stem alts []
  | c :: rest =>
    stemAltsHeadMatch stem alts (c :: rest)
      || (optSpace && c == ' ' && stemAltsHeadMatch stem alts rest)
      || stemAltsSearch optSpace stem alts rest

/-- `Regex::is_match` of a produced pattern, where its semantics are
embedded (`none` for the verbatim irregular texts). -/

def findRegexMatches : FindRegex → Str → Option Bool
  | .stemAlts optSpace stem alts, s => some (stemAltsSearch optSpace stem alts s)
  | .rawText _, _ => none

/-! ## The claims -/

/-- A record tagged JLPT-N1 (level number 1), strictly better than
`levelFiveWord` on every later criterion: a lower news rank, more examples,
more glossary entries, and a lower minimum glossary order. -/

def levelOneWord : Word :=
  ⟨1, ("一").toList,
    [⟨1, ∅, [("one").toList]⟩, ⟨5, ∅, []⟩],
    {("JLPT-N1").toList, ("news1k").toList},
    {⟨("例").toList, ("example").toList⟩}⟩

/-- A record for the same kanji-only spelling tagged JLPT-N5 (level
number 5). -/

def levelFiveWord : Word :=
  ⟨2, ("一[いち]").toList, [⟨3, ∅, []⟩], {("JLPT-N5").toList}, ∅⟩

/-- A record whose single glossary entry has the lower priority-integer 1. -/

def lowOrderWord : Word :=
  ⟨1, ("口").toList, [⟨1, ∅, []⟩], {("JLPT-N5").toList}, ∅⟩

/-- A record for the same kanji-only spelling, tied with `lowOrderWord` on
the first four criteria, whose single glossary entry has the higher
priority-integer 2. -/

def highOrderWord : Word :=
  ⟨2, ("口[くち]").toList, [⟨2, ∅, []⟩], {("JLPT-N5").toList}, ∅⟩

/-- A word entry whose raw spelling cannot be aligned against an empty
readings table. -/

def fallbackWordEntry : JmnedictWord :=
  ⟨("今日").toList, ("きょう").toList, {("n").toList}, 10, [("today").toList], 42, ∅, []⟩

/-- A frequency entry whose raw spelling cannot be aligned against an empty
readings table. -/

def fallbackFreqEntry : JmnedictFrequency := ⟨("会う").toList, ("あう").toList, 5⟩

/-- A record stored under the raw key (`食べる`, `たべる`). -/

def storedWord : Word :=
  ⟨7, ("食[た]べる").toList, [⟨2, ∅, [("to eat").toList]⟩],
    {("ichi").toList}, {⟨("日").toList, ("sun").toList⟩}⟩

/-- A later word entry for the same raw key. -/

def mergingEntry : JmnedictWord :=
  ⟨("食べる").toList, ("たべる").toList, {("v1").toList}, 1, [("to dine").toList],
    99, {("news13k").toList}, [(("文").toList, ("sentence").toList)]⟩

/-- A frequency entry whose raw kanji spelling contains bracket characters;
its alignment fails, so its display spelling is the unverified fallback. -/

def collidingEntryA : JmnedictEntry :=
  .freq ⟨("あ[い]う").toList, ("え").toList, 5⟩

/-- A frequency entry with a different raw key whose fallback display
spelling coincides with `collidingEntryA`'s. -/

def collidingEntryB : JmnedictEntry :=
  .freq ⟨("あ").toList, ("い]う[え").toList, 5⟩

/-- The readings table of the compound-reading example: 今 and 日 each have
their usual readings, none of whose concatenations spell きょう. -/

def compoundReadingTable : ReadingsTable :=
  [('今', [("こん").toList, ("きん").toList, ("いま").toList]),
   ('日', [("にち").toList, ("じつ").toList, ("ひ").toList, ("び").toList, ("か").toList])]

/-- The note for the godan verb 作る carrying its v5-class tag. -/

def godanNote : AnkiNote := ⟨("作る").toList, [("v5る").toList]⟩

/-! ## Round-trip soundness of the aligner (claim C2)

The matcher explores alternative choices and wildcard lengths in priority
order; for the round-trip property only soundness of any returned split is
needed: the captures concatenate to the kana input and each capture lies in
its block's language. -/

/-- An alternative matches a capture under the regex reading of its
characters: pointwise atom matching, so a literal pins the character and
`.` admits any non-newline character. -/

def AltMatch (a cap : Str) : Prop :=
  ∃ atoms, altAtoms a = some atoms ∧
    List.Forall₂ (fun t ch => atomMatches t ch = true) atoms cap

/-- A capture lies in the language of one alternation group. -/

def GroupFits (g : List Str) (cap : Str) : Prop := ∃ a ∈ g, AltMatch a cap

/-- Membership in the language of a concatenation of alternation groups:
one capture per group, concatenated. -/

def PatLangMem (groups : List (List Str)) (c : Str) : Prop :=
  ∃ picks : List Str, List.Forall₂ (fun cap g => GroupFits g cap) picks groups ∧
    c = picks.flatten

/-- What a capture satisfies at a pattern position. -/

def SpecFits (c : Str) : PatSpec → Prop
  | .pat groups => PatLangMem groups c
  | .wild => c ≠ []

/-- The concatenated texts of a block list. -/

def textsJoin (bs : List FuriBlock) : Str := (bs.map FuriBlock.text).flatten

/-- Well-formedness of a block: nonempty plain text, at least one pattern
group, no empty alternative, and — for non-kanji blocks — a pattern whose
language is exactly the block's own text. -/

def BlockWF (b : FuriBlock) : Prop :=
  b.text ≠ [] ∧ PlainStr b.text ∧ b.pat ≠ [] ∧ (∀ g ∈ b.pat, ∀ a ∈ g, a ≠ []) ∧
    (b.isKanji = false → ∀ c, PatLangMem b.pat c → c = b.text)

/-- What each (block, capture) pair of a successful match satisfies. -/

def PairOK (p : FuriBlock × Str) : Prop :=
  p.1.text ≠ [] ∧ PlainStr p.1.text ∧
    (p.1.isKanji = true → p.2 ≠ [] ∧ PlainStr p.2) ∧
    (p.1.isKanji = false → p.2 = p.1.text)

/-- The projection a scan applies to one rendered segment. -/

def segProj (proj : Str → Str → Str) (p : FuriBlock × Str) : Str :=
  if p.1.isKanji then proj p.1.text p.2 else p.1.text

/-- The kind of the last accumulated block. -/

def lastKind (l : List FuriBlock) : Option Bool := l.getLast?.map FuriBlock.isKanji

/-! ## Proofs -/

theorem matchCore_eq_some {t kj kn r : Str} (h : matchCore t = some (kj, kn, r)) :
    t = kj ++ '[' :: (kn ++ ']' :: r) ∧ kj ≠ [] ∧ kn ≠ [] ∧
      PlainStr kj ∧ PlainStr kn := by
  unfold matchCore at h
  split at h
  next kj0 kjs r2 htake hdrop =>
    split at h
    next kn0 kns r4 htake2 hdrop2 =>
      simp only [Option.some.injEq, Prod.mk.injEq] at h
      obtain ⟨h1, h2, h3⟩ := h
      subst h1; subst h2; subst h3
      have ht := (List.takeWhile_append_dropWhile isPlain t).symm
      rw [htake, hdrop] at ht
      have hr2 := (List.takeWhile_append_dropWhile isPlain r2).symm
      rw [htake2, hdrop2] at hr2
      refine ⟨?_, by simp, by simp, ?_, ?_⟩
      · rw [ht, hr2]
      · intro c hc; exact List.mem_takeWhile_imp (htake ▸ hc)
      · intro c hc; exact List.mem_takeWhile_imp (htake2 ▸ hc)
    next => exact Option.noConfusion h
  next => exact Option.noConfusion h

/-- If a run of plain characters is followed by a character failing `p`
(or by nothing), `takeWhile`/`dropWhile` split exactly there. -/

theorem takeWhile_dropWhile_append {p : Char → Bool} {l r : Str}
    (hl : ∀ c ∈ l, p c = true) (hr : ∀ c, r.head? = some c → p c = false) :
    (l ++ r).takeWhile p = l ∧ (l ++ r).dropWhile p = r := by
  induction l with
  | nil =>
    simp only [List.nil_append]
    cases r with
    | nil => simp
    | cons c cs =>
      have := hr c rfl
      simp [List.takeWhile, List.dropWhile, this]
  | cons c cs ih =>
    have hc : p c = true := hl c (by simp)
    have ih' := ih (fun x hx => hl x (by simp [hx]))
    simp [List.takeWhile, List.dropWhile, hc, ih'.1, ih'.2]

theorem matchCore_build {t c r : Str} (ht : t ≠ []) (hp : PlainStr t)
    (hc : c ≠ []) (hcp : PlainStr c) :
    matchCore (t ++ '[' :: (c ++ ']' :: r)) = some (t, c, r) := by
  have h1 := @takeWhile_dropWhile_append isPlain t ('[' :: (c ++ ']' :: r))
    hp (by intro x hx; injection hx with hx; subst hx; rfl)
  have h2 := @takeWhile_dropWhile_append isPlain c (']' :: r)
    hcp (by intro x hx; injection hx with hx; subst hx; rfl)
  unfold matchCore
  rw [h1.1, h1.2]
  cases t with
  | nil => exact absurd rfl ht
  | cons t0 ts =>
    simp only []
    rw [h2.1, h2.2]
    cases c with
    | nil => exact absurd rfl hc
    | cons c0 cs => rfl

theorem furiScanStep_length_lt {s kj kn r : Str}
    (h : furiScanStep s = some (kj, kn, r)) : r.length < s.length := by
  cases s with
  | nil => exact Option.noConfusion h
  | cons c xs =>
    rw [furiScanStep] at h
    split at h
    · rw [(matchCore_eq_some h).1]
      simp
      omega
    · rw [(matchCore_eq_some h).1]
      simp
      omega

/-- The fuel is irrelevant as long as it is sufficient. -/

theorem replaceFuriAux_fuel (proj : Str → Str → Str) :
    ∀ fuel1 fuel2 s, s.length ≤ fuel1 → s.length ≤ fuel2 →
      replaceFuriAux proj fuel1 s = replaceFuriAux proj fuel2 s := by
  intro fuel1
  induction fuel1 with
  | zero =>
    intro fuel2 s h1 _
    cases s with
    | nil => cases fuel2 <;> rfl
    | cons c rest => exact absurd h1 (by simp)
  | succ n ih =>
    intro fuel2 s h1 h2
    cases s with
    | nil => cases fuel2 <;> rfl
    | cons c rest =>
      cases fuel2 with
      | zero => exact absurd h2 (by simp)
      | succ m =>
        cases hstep : furiScanStep (c :: rest) with
        | some v =>
          obtain ⟨kj, kn, r⟩ := v
          have hlt := furiScanStep_length_lt hstep
          simp only [List.length_cons] at h1 h2 hlt
          simp only [replaceFuriAux, hstep]
          rw [ih m r (by omega) (by omega)]
        | none =>
          simp only [List.length_cons] at h1 h2
          simp only [replaceFuriAux, hstep]
          rw [ih m rest (by omega) (by omega)]

theorem replaceFuri_nil (proj : Str → Str → Str) : replaceFuri proj [] = [] := rfl

theorem replaceFuri_of_step (proj : Str → Str → Str) {s kj kn r : Str}
    (h : furiScanStep s = some (kj, kn, r)) :
    replaceFuri proj s = proj kj kn ++ replaceFuri proj r := by
  cases s with
  | nil => exact Option.noConfusion h
  | cons c rest =>
    have hlt := furiScanStep_length_lt h
    simp only [List.length_cons] at hlt
    unfold replaceFuri
    simp only [List.length_cons, replaceFuriAux, h]
    congr 1
    exact replaceFuriAux_fuel proj rest.length r.length r (by omega) le_rfl

theorem replaceFuri_of_skip (proj : Str → Str → Str) {c : Char} {rest : Str}
    (h : furiScanStep (c :: rest) = none) :
    replaceFuri proj (c :: rest) = c :: replaceFuri proj rest := by
  unfold replaceFuri
  simp only [List.length_cons, replaceFuriAux, h]

theorem isPlain_not_space {c : Char} (h : isPlain c = true) : c ≠ ' ' := by
  intro hc
  subst hc
  simp [isPlain, isWs] at h

theorem matchCore_none {t : Str} (h : (t.dropWhile isPlain).head? ≠ some '[') :
    matchCore t = none := by
  unfold matchCore
  split
  next kj0 kjs r2 htake hdrop =>
    exact absurd (by rw [hdrop]; rfl) h
  next => rfl

theorem dropWhile_append_plain {t rest : Str} (hp : PlainStr t) :
    (t ++ rest).dropWhile isPlain = rest.dropWhile isPlain := by
  induction t with
  | nil => rfl
  | cons c cs ih =>
    have hc : isPlain c = true := hp c (by simp)
    simp only [List.cons_append, List.dropWhile, hc]
    exact ih (fun x hx => hp x (by simp [hx]))

/-- Scanning skips over a run of plain characters whenever the string
continues safely: no replacement happens inside the run. -/

theorem replaceFuri_plain_run (proj : Str → Str → Str) {t rest : Str}
    (hp : PlainStr t) (hsafe : HeadSafe rest) :
    replaceFuri proj (t ++ rest) = t ++ replaceFuri proj rest := by
  induction t with
  | nil => rfl
  | cons c cs ih =>
    have hc : isPlain c = true := hp c (by simp)
    have hcs : PlainStr cs := fun x hx => hp x (by simp [hx])
    have hnone : furiScanStep (c :: (cs ++ rest)) = none := by
      rw [furiScanStep, if_neg (isPlain_not_space hc)]
      refine matchCore_none ?_
      have : (c :: (cs ++ rest)).dropWhile isPlain = rest.dropWhile isPlain := by
        have := @dropWhile_append_plain (c :: cs) rest hp
        simpa using this
      rw [this]
      exact hsafe
    calc replaceFuri proj (c :: cs ++ rest)
        = c :: replaceFuri proj (cs ++ rest) := replaceFuri_of_skip proj hnone
      _ = c :: (cs ++ replaceFuri proj rest) := by rw [ih hcs]
      _ = c :: cs ++ replaceFuri proj rest := rfl

/-- The scanner fires exactly on a rendered furigana group
`kanji[kana]…` (with plain nonempty captures), consuming it whole. -/

theorem furiScanStep_group {t c r : Str} (ht : t ≠ []) (hp : PlainStr t)
    (hc : c ≠ []) (hcp : PlainStr c) :
    furiScanStep (t ++ '[' :: (c ++ ']' :: r)) = some (t, c, r) := by
  cases t with
  | nil => exact absurd rfl ht
  | cons t0 ts =>
    have h0 : isPlain t0 = true := hp t0 (by simp)
    rw [List.cons_append, furiScanStep, if_neg (isPlain_not_space h0)]
    exact matchCore_build ht hp hc hcp

/-- The scanner also fires when the group is preceded by the separating
space inserted between furigana blocks, consuming the space too. -/

theorem furiScanStep_space_group {t c r : Str} (ht : t ≠ []) (hp : PlainStr t)
    (hc : c ≠ []) (hcp : PlainStr c) :
    furiScanStep (' ' :: (t ++ '[' :: (c ++ ']' :: r))) = some (t, c, r) := by
  rw [furiScanStep, if_pos rfl]
  exact matchCore_build ht hp hc hcp

/-! ## Helper lemmas for the claims -/

theorem alistGet_put {κ α : Type} [DecidableEq κ]
    (m : List (κ × α)) (k : κ) (v : α) : alistGet (alistPut m k v) k = some v := by
  induction m with
  | nil => simp [alistPut, alistGet]
  | cons kv rest ih =>
    obtain ⟨k0, v0⟩ := kv
    by_cases h : k0 = k
    · simp [alistPut, alistGet, h]
    · simp [alistPut, alistGet, h, ih]

theorem cmpNat_eq_lt {a b : Nat} (h : a < b) : cmpNat a b = .lt := by
  unfold cmpNat
  rw [if_pos h]

theorem cmpNat_eq_gt {a b : Nat} (h : b < a) : cmpNat a b = .gt := by
  unfold cmpNat
  rw [if_neg (by omega), if_neg (by omega)]

theorem cmpNat_eq_eq {a b : Nat} (h : a = b) : cmpNat a b = .eq := by
  unfold cmpNat
  rw [if_neg (by omega), if_pos h]

theorem cmpInt_eq_lt {a b : Int} (h : a < b) : cmpInt a b = .lt := by
  unfold cmpInt
  rw [if_pos h]

theorem cmpInt_eq_gt {a b : Int} (h : b < a) : cmpInt a b = .gt := by
  unfold cmpInt
  rw [if_neg (by omega), if_neg (by omega)]

/-- The first criterion is decisive: a strictly smaller new-record JLPT rank
keeps the incumbent, whatever the four later criteria say. -/

theorem overlapReplaces_of_jlpt_lt {v2 v1 : Word}
    (h : jlptRank v1 < jlptRank v2) : overlapReplaces v2 v1 = false := by
  unfold overlapReplaces
  rw [cmpNat_eq_lt h]

/-- The first criterion is decisive: a strictly larger new-record JLPT rank
replaces the incumbent, whatever the four later criteria say. -/

theorem overlapReplaces_of_jlpt_gt {v2 v1 : Word}
    (h : jlptRank v2 < jlptRank v1) : overlapReplaces v2 v1 = true := by
  unfold overlapReplaces
  rw [cmpNat_eq_gt h]

/-- With the first four criteria tied, the fifth decides: the new record
replaces the incumbent exactly when its minimum glossary order is larger. -/

theorem overlapReplaces_of_ties {v2 v1 : Word}
    (h1 : jlptRank v1 = jlptRank v2) (h2 : newsRank v1 = newsRank v2)
    (h3 : v1.examples.card = v2.examples.card)
    (h4 : v1.glossary.length = v2.glossary.length) :
    overlapReplaces v2 v1 = decide (minGlossOrder v2 < minGlossOrder v1) := by
  unfold overlapReplaces
  rw [cmpNat_eq_eq h1, cmpNat_eq_eq h2.symm, cmpNat_eq_eq h3, cmpNat_eq_eq h4]
  rcases lt_trichotomy (minGlossOrder v1) (minGlossOrder v2) with h | h | h
  · rw [cmpInt_eq_lt h, decide_eq_false (by omega)]
  · unfold cmpInt
    rw [if_neg (by omega), if_pos h, decide_eq_false (by omega)]
  · rw [cmpInt_eq_gt h, decide_eq_true h]

/-- Folding two records that collapse onto the same kanji-only key keeps the
one the comparator prefers, in either insertion order. -/

theorem filterOverlapping_pair {k1 k2 : Str} {w1 w2 : Word}
    (hk : toKanji k1 = toKanji k2)
    (ha : overlapReplaces w1 w2 = false) (hb : overlapReplaces w2 w1 = true) :
    filterOverlapping [(k1, w1), (k2, w2)] = [(w1.furigana, w1)] ∧
    filterOverlapping [(k2, w2), (k1, w1)] = [(w1.furigana, w1)] := by
  constructor
  · simp only [filterOverlapping, filterOverlappingFold, List.nil_append, alistGet,
      rekeyByFurigana, List.foldl]
    rw [if_pos hk]
    dsimp only
    rw [ha]
    simp [alistPut]
  · simp only [filterOverlapping, filterOverlappingFold, List.nil_append, alistGet,
      rekeyByFurigana, List.foldl]
    rw [if_pos hk.symm]
    dsimp only
    rw [hb]
    simp [alistPut, if_pos hk.symm]

theorem convertWordDataLoop_unrecognized (tbl : ReadingsTable) (raw : RawRecord)
    (post : List JmnedictEntry) :
    ∀ (pre : List JmnedictEntry) (m : WordsMap),
      (∀ e ∈ pre, e.isUnrecognized = false) →
      convertWordDataLoop tbl (pre ++ JmnedictEntry.unknown raw :: post) m =
        .error (unknownMessage raw) := by
  intro pre
  induction pre with
  | nil => intro m _; rfl
  | cons e pre ih =>
    intro m hpre
    have he := hpre e (by simp)
    cases e with
    | word w => exact ih _ (fun x hx => hpre x (by simp [hx]))
    | freq f => exact ih _ (fun x hx => hpre x (by simp [hx]))
    | kanji k => exact ih _ (fun x hx => hpre x (by simp [hx]))
    | unknown r => simp [JmnedictEntry.isUnrecognized] at he

/-- **C1, counterexample.**  Two records collapse onto the kanji-only key
`一`; the one carrying the lower JLPT level number (N1, level 1) is better
on every later criterion as the claim reads them, yet `filter_overlapping`
keeps the JLPT-N5 record in either insertion order: the comparator prefers
the *larger* level number, so the claim's "lower level number wins" is
false on the code. -/

theorem C1_counterexample :
    jlptRank levelOneWord = 1 ∧ jlptRank levelFiveWord = 5 ∧
    toKanji (("一").toList) = toKanji (("一[いち]").toList) ∧
    newsRank levelOneWord < newsRank levelFiveWord ∧
    levelFiveWord.examples.card < levelOneWord.examples.card ∧
    levelFiveWord.glossary.length < levelOneWord.glossary.length ∧
    minGlossOrder levelOneWord < minGlossOrder levelFiveWord ∧
    filterOverlapping [(("一").toList, levelOneWord), (("一[いち]").toList, levelFiveWord)] =
      [(levelFiveWord.furigana, levelFiveWord)] ∧
    filterOverlapping [(("一[いち]").toList, levelFiveWord), (("一").toList, levelOneWord)] =
      [(levelFiveWord.furigana, levelFiveWord)] ∧
    filterOverlapping [(("一").toList, levelOneWord), (("一[いち]").toList, levelFiveWord)] ≠
      [(levelOneWord.furigana, levelOneWord)] := by
  decide

/-- **C1, amended.**  For two records collapsing onto the same kanji-only
spelling, if exactly one carries the strictly *higher* JLPT rank (the level
number of the first `JLPT-N<n>` tag found from N1 down, a record with no
level tag ranking 0, i.e. worst), then that record is kept regardless of
frequency rank, example count, glossary count or glossary order, in either
insertion order. -/

theorem C1_level_criterion_dominates (k1 k2 : Str) (w1 w2 : Word)
    (hk : toKanji k1 = toKanji k2) (hj : jlptRank w2 < jlptRank w1) :
    filterOverlapping [(k1, w1), (k2, w2)] = [(w1.furigana, w1)] ∧
    filterOverlapping [(k2, w2), (k1, w1)] = [(w1.furigana, w1)] :=
  filterOverlapping_pair hk (overlapReplaces_of_jlpt_lt hj) (overlapReplaces_of_jlpt_gt hj)

/-- **C1, amended: witness.**  The amended theorem applied at the two
concrete records above. -/

theorem C1_level_criterion_dominates_witness :
    filterOverlapping [(("一[いち]").toList, levelFiveWord), (("一").toList, levelOneWord)] =
      [(levelFiveWord.furigana, levelFiveWord)] :=
  (C1_level_criterion_dominates (("一[いち]").toList) (("一").toList)
    levelFiveWord levelOneWord (by decide) (by decide)).1

/-- **C3, counterexample.**  Two records collapse onto the kanji-only key
`口` and tie on classification level, news rank, example count and glossary
count; their minimum glossary orders are 1 and 2.  The claim says the
record with the lower minimum (1) is kept, but `filter_overlapping` keeps
the record with minimum 2 in either insertion order. -/

theorem C3_counterexample :
    jlptRank lowOrderWord = jlptRank highOrderWord ∧
    newsRank lowOrderWord = newsRank highOrderWord ∧
    lowOrderWord.examples.card = highOrderWord.examples.card ∧
    lowOrderWord.glossary.length = highOrderWord.glossary.length ∧
    minGlossOrder lowOrderWord < minGlossOrder highOrderWord ∧
    filterOverlapping [(("口").toList, lowOrderWord), (("口[くち]").toList, highOrderWord)] =
      [(highOrderWord.furigana, highOrderWord)] ∧
    filterOverlapping [(("口[くち]").toList, highOrderWord), (("口").toList, lowOrderWord)] =
      [(highOrderWord.furigana, highOrderWord)] ∧
    filterOverlapping [(("口").toList, lowOrderWord), (("口[くち]").toList, highOrderWord)] ≠
      [(lowOrderWord.furigana, lowOrderWord)] := by
  decide

/-- **C3, amended.**  For two records collapsing onto the same kanji-only
spelling and tied on the first four criteria, the record whose minimum
GlossaryEntry priority-integer is *higher* is kept, in either insertion
order; a record with no glossary entries is assigned the sentinel
`i32::MAX`, which is best, not worst, on this criterion (after a criterion-4
tie the sentinel can only face another sentinel). -/

theorem C3_fifth_criterion (k1 k2 : Str) (w1 w2 : Word)
    (hk : toKanji k1 = toKanji k2)
    (h1 : jlptRank w1 = jlptRank w2) (h2 : newsRank w1 = newsRank w2)
    (h3 : w1.examples.card = w2.examples.card)
    (h4 : w1.glossary.length = w2.glossary.length)
    (h5 : minGlossOrder w2 < minGlossOrder w1) :
    filterOverlapping [(k1, w1), (k2, w2)] = [(w1.furigana, w1)] ∧
    filterOverlapping [(k2, w2), (k1, w1)] = [(w1.furigana, w1)] := by
  refine filterOverlapping_pair hk ?_ ?_
  · rw [overlapReplaces_of_ties h1.symm h2.symm h3.symm h4.symm]
    simp
    omega
  · rw [overlapReplaces_of_ties h1 h2 h3 h4]
    simp [h5]

/-- **C3, amended: witness.**  The amended theorem applied at the two
concrete records above. -/

theorem C3_fifth_criterion_witness :
    filterOverlapping [(("口[くち]").toList, highOrderWord), (("口").toList, lowOrderWord)] =
      [(highOrderWord.furigana, highOrderWord)] :=
  (C3_fifth_criterion (("口[くち]").toList) (("口").toList) highOrderWord lowOrderWord
    (by decide) (by decide) (by decide) (by decide) (by decide) (by decide)).1

/-- **C4.**  A source record matching none of the recognized shapes aborts
the whole word-conversion pass at the point it is reached — whatever
recognized entries precede it and whatever entries follow it are irrelevant
— and the resulting error is the message that prints the offending raw
record. -/

theorem C4_unrecognized_record_aborts (tbl : ReadingsTable)
    (pre post : List JmnedictEntry) (raw : RawRecord)
    (hpre : ∀ e ∈ pre, e.isUnrecognized = false) :
    convertWordData tbl (pre ++ JmnedictEntry.unknown raw :: post) =
      .error (unknownMessage raw) := by
  unfold convertWordData
  rw [convertWordDataLoop_unrecognized tbl raw post pre [] hpre]

/-- **C4: witness.** -/

theorem C4_unrecognized_record_aborts_witness :
    convertWordData []
      ([JmnedictEntry.kanji ⟨'気'⟩] ++ JmnedictEntry.unknown
        ⟨("1").toList, ("2").toList, ("[1, 2]").toList⟩ ::
        [JmnedictEntry.freq ⟨("会う").toList, ("あう").toList, 5⟩]) =
      .error (unknownMessage ⟨("1").toList, ("2").toList, ("[1, 2]").toList⟩) :=
  C4_unrecognized_record_aborts [] [JmnedictEntry.kanji ⟨'気'⟩]
    [JmnedictEntry.freq ⟨("会う").toList, ("あう").toList, 5⟩]
    ⟨("1").toList, ("2").toList, ("[1, 2]").toList⟩ (by decide)

/-- **C5.**  A word or frequency entry whose raw key is absent and whose
alignment fails is still converted successfully (no error), inserting a
record whose display spelling is the raw concatenation
`kanji ++ "[" ++ kana ++ "]"`. -/

theorem C5_alignment_failure_fallback (tbl : ReadingsTable) (words : WordsMap)
    (w : JmnedictWord) (f : JmnedictFrequency)
    (hw : alistGet words (w.kanji, w.kana) = none)
    (hwa : toFurigana tbl w.kanji w.kana = none)
    (hf : alistGet words (f.kanji, f.kana) = none)
    (hfa : toFurigana tbl f.kanji f.kana = none) :
    (JmnedictEntry.convertWordData tbl words (.word w) =
        .ok (w.convertWordData tbl words) ∧
      alistGet (w.convertWordData tbl words) (w.kanji, w.kana) =
        some ⟨w.id, w.kanji ++ '[' :: (w.kana ++ [']']),
          [⟨w.order, w.tags, w.gloss⟩], w.frequency, exampleFinset w.examples⟩) ∧
    (JmnedictEntry.convertWordData tbl words (.freq f) =
        .ok (f.convertWordData tbl words) ∧
      alistGet (f.convertWordData tbl words) (f.kanji, f.kana) =
        some ⟨0, f.kanji ++ '[' :: (f.kana ++ [']']), [], f.tags, ∅⟩) := by
  refine ⟨⟨rfl, ?_⟩, ⟨rfl, ?_⟩⟩
  · unfold JmnedictWord.convertWordData
    rw [hw]
    dsimp only
    unfold displaySpelling
    rw [hwa]
    exact alistGet_put ..
  · unfold JmnedictFrequency.convertWordData
    rw [hf]
    dsimp only
    unfold displaySpelling
    rw [hfa]
    exact alistGet_put ..

/-- **C5: witness.** -/

theorem C5_alignment_failure_fallback_witness :
    alistGet (fallbackWordEntry.convertWordData [] [])
        (fallbackWordEntry.kanji, fallbackWordEntry.kana) =
      some ⟨42, ("今日[きょう]").toList, [⟨10, {("n").toList}, [("today").toList]⟩], ∅, ∅⟩ ∧
    alistGet (fallbackFreqEntry.convertWordData [] [])
        (fallbackFreqEntry.kanji, fallbackFreqEntry.kana) =
      some ⟨0, ("会う[あう]").toList, [], fallbackFreqEntry.tags, ∅⟩ := by
  have h := C5_alignment_failure_fallback [] [] fallbackWordEntry fallbackFreqEntry
    (by decide) (by decide) (by decide) (by decide)
  exact ⟨h.1.2, h.2.2⟩

/-- **C6.**  Converting a word entry whose raw key is already stored leaves
exactly one more glossary entry (the entry's own, the rest a permutation of
the old list), union-merges the frequency tags and the examples, overwrites
the numeric identifier, and leaves the display spelling unchanged. -/

theorem C6_existing_key_merge (tbl : ReadingsTable) (words : WordsMap)
    (e : JmnedictWord) (w : Word)
    (h : alistGet words (e.kanji, e.kana) = some w) :
    ∃ w', alistGet (e.convertWordData tbl words) (e.kanji, e.kana) = some w' ∧
      w'.glossary.Perm (w.glossary ++ [⟨e.order, e.tags, e.gloss⟩]) ∧
      w'.glossary.length = w.glossary.length + 1 ∧
      w'.frequency = w.frequency ∪ e.frequency ∧
      w'.examples = w.examples ∪ exampleFinset e.examples ∧
      w'.word_id = e.id ∧
      w'.furigana = w.furigana := by
  refine ⟨{ w with
      word_id := e.id
      glossary := List.insertionSort (fun a b => a.order ≤ b.order)
        (w.glossary ++ [⟨e.order, e.tags, e.gloss⟩])
      frequency := w.frequency ∪ e.frequency
      examples := w.examples ∪ exampleFinset e.examples }, ?_, ?_, ?_, rfl, rfl, rfl, rfl⟩
  · unfold JmnedictWord.convertWordData
    rw [h]
    dsimp only
    exact alistGet_put ..
  · exact List.perm_insertionSort _ _
  · rw [(List.perm_insertionSort _ _).length_eq]
    simp

/-- **C6: witness.** -/

theorem C6_existing_key_merge_witness :
    ∃ w', alistGet (mergingEntry.convertWordData []
        [((("食べる").toList, ("たべる").toList), storedWord)])
        (mergingEntry.kanji, mergingEntry.kana) = some w' ∧
      w'.glossary.Perm (storedWord.glossary ++
        [⟨mergingEntry.order, mergingEntry.tags, mergingEntry.gloss⟩]) ∧
      w'.glossary.length = storedWord.glossary.length + 1 ∧
      w'.frequency = storedWord.frequency ∪ mergingEntry.frequency ∧
      w'.examples = storedWord.examples ∪ exampleFinset mergingEntry.examples ∧
      w'.word_id = mergingEntry.id ∧
      w'.furigana = storedWord.furigana :=
  C6_existing_key_merge [] [((("食べる").toList, ("たべる").toList), storedWord)]
    mergingEntry storedWord (by decide)

theorem alistGet_eq_none_iff {κ α : Type} [DecidableEq κ]
    (m : List (κ × α)) (k : κ) : alistGet m k = none ↔ k ∉ m.map Prod.fst := by
  induction m with
  | nil => simp [alistGet]
  | cons kv rest ih =>
    obtain ⟨k0, v0⟩ := kv
    by_cases h : k0 = k
    · subst h
      simp [alistGet]
    · simp [alistGet, h, ih, Ne.symm h]

theorem alistPut_of_absent {κ α : Type} [DecidableEq κ]
    {m : List (κ × α)} {k : κ} (v : α) (h : k ∉ m.map Prod.fst) :
    alistPut m k v = m ++ [(k, v)] := by
  induction m with
  | nil => rfl
  | cons kv rest ih =>
    obtain ⟨k0, v0⟩ := kv
    simp only [List.map_cons, List.mem_cons] at h
    push_neg at h
    simp [alistPut, Ne.symm h.1, ih h.2]

theorem rekey_foldl_of_nodup {κ : Type} :
    ∀ (l : List (κ × Word)) (out : List (Str × Word)),
      (∀ kw ∈ l, kw.2.furigana ∉ out.map Prod.fst) →
      (l.map (fun kw => kw.2.furigana)).Nodup →
      List.foldl (fun out kw => alistPut out kw.2.furigana kw.2) out l =
        out ++ l.map (fun kw => (kw.2.furigana, kw.2)) := by
  intro l
  induction l with
  | nil => intro out _ _; simp
  | cons kw l ih =>
    intro out hout hnodup
    simp only [List.map_cons, List.nodup_cons] at hnodup
    rw [List.foldl_cons, alistPut_of_absent kw.2 (hout kw (by simp))]
    rw [ih (out ++ [(kw.2.furigana, kw.2)]) ?_ hnodup.2]
    · simp
    · intro x hx
      simp only [List.map_append, List.mem_append, List.map_cons, List.map_nil]
      push_neg
      refine ⟨hout x (by simp [hx]), ?_⟩
      intro hmem
      simp only [List.mem_singleton] at hmem
      exact hnodup.1 (hmem ▸ List.mem_map_of_mem (fun kw => kw.2.furigana) hx)

/-- **C7, counterexample.**  Two frequency entries with distinct raw
(kanji, kana) keys both fail alignment and both fall back to the same
display spelling `あ[い]う[え]`; the accumulator ends the pass with two
records, but the map re-keyed by display spelling has only one — the
projection from raw keys to display spellings is not injective and a record
is silently lost. -/

theorem C7_counterexample :
    (convertWordDataLoop [] [collidingEntryA, collidingEntryB] []).toOption.map
        (fun m => (m.map Prod.fst, m.map (fun kw => kw.2.furigana))) =
      some ([((("あ[い]う").toList), (("え").toList)), ((("あ").toList), (("い]う[え").toList))],
            [("あ[い]う[え]").toList, ("あ[い]う[え]").toList]) ∧
    (convertWordData [] [collidingEntryA, collidingEntryB]).toOption.map List.length =
      some 1 := by
  decide

/-- **C7, amended.**  The final re-keying keeps exactly one record per
display spelling; when the display spellings of the accumulated records are
pairwise distinct the re-keyed map is exactly the records keyed by their
spellings — same length, nothing lost — but when two distinct raw keys
produce the same display spelling (possible through the unverified
fallback), the later record overwrites the earlier one. -/

theorem C7_rekey_keeps_distinct_spellings (m : WordsMap)
    (h : (m.map (fun kw => kw.2.furigana)).Nodup) :
    rekeyByFurigana m = m.map (fun kw => (kw.2.furigana, kw.2)) ∧
    (rekeyByFurigana m).length = m.length := by
  have := rekey_foldl_of_nodup m [] (by simp) h
  unfold rekeyByFurigana
  rw [this]
  simp

/-- **C7, amended: witness.** -/

theorem C7_rekey_keeps_distinct_spellings_witness :
    rekeyByFurigana [((("日").toList, ("ひ").toList), storedWord)] =
      [(storedWord.furigana, storedWord)] ∧
    (rekeyByFurigana [((("日").toList, ("ひ").toList), storedWord)]).length = 1 :=
  C7_rekey_keeps_distinct_spellings [((("日").toList, ("ひ").toList), storedWord)] (by decide)

/-- **C8.**  With the given readings for 今 and 日, the per-character pass
finds no alignment of (今日, きょう), and the aligner succeeds only after
coalescing, returning the single block `今日[きょう]`. -/

theorem C8_compound_reading_coalesces :
    toFurigana compoundReadingTable (("今日").toList) (("きょう").toList) =
      some (("今日[きょう]").toList) ∧
    toFuriganaBlocksCheck (("きょう").toList)
      (mkBlocks compoundReadingTable (("今日").toList)) = none := by
  constructor
  · decide
  · decide

/-- **C9.**  For 作る with a v5-class tag, `get_find_regex` yields the
godan-る pattern ` ?作(?:…)`, which matches the base form 作る and the past
form 作った but not 作く. -/

theorem C9_godan_ru_pattern :
    getFindRegex godanNote = some (.stemAlts true (("作").toList) godanR) ∧
    (getFindRegex godanNote).map (fun p =>
      (findRegexMatches p (("作る").toList),
       findRegexMatches p (("作った").toList),
       findRegexMatches p (("作く").toList))) =
      some (some true, some true, some false) := by
  constructor
  · decide
  · decide

/-- **C10.**  Converting a frequency entry whose raw key is absent inserts
a record with identifier 0, an empty glossary, an empty example set, and
the single frequency tag `JLPT-N<level>`. -/

theorem C10_frequency_only_insert (tbl : ReadingsTable) (words : WordsMap)
    (f : JmnedictFrequency) (h : alistGet words (f.kanji, f.kana) = none) :
    alistGet (f.convertWordData tbl words) (f.kanji, f.kana) =
      some ⟨0, displaySpelling tbl f.kanji f.kana, [],
        {("JLPT-N" ++ Nat.repr f.jlpt).toList}, ∅⟩ := by
  unfold JmnedictFrequency.convertWordData
  rw [h]
  dsimp only
  exact alistGet_put ..

/-- **C10: witness.** -/

theorem C10_frequency_only_insert_witness :
    alistGet ((JmnedictFrequency.mk (("会う").toList) (("あう").toList) 5).convertWordData [] [])
        ((("会う").toList), (("あう").toList)) =
      some ⟨0, displaySpelling [] (("会う").toList) (("あう").toList), [],
        {("JLPT-N5").toList}, ∅⟩ :=
  C10_frequency_only_insert [] [] ⟨("会う").toList, ("あう").toList, 5⟩ (by decide)

theorem findSome?_eq_some_mem {α β : Type} {f : α → Option β} {b : β} :
    ∀ {l : List α}, l.findSome? f = some b → ∃ a ∈ l, f a = some b := by
  intro l
  induction l with
  | nil => intro h; exact Option.noConfusion h
  | cons a l ih =>
    intro h
    rw [List.findSome?] at h
    cases hfa : f a with
    | some v =>
      rw [hfa] at h
      dsimp only at h
      exact ⟨a, by simp, hfa.trans h⟩
    | none =>
      rw [hfa] at h
      dsimp only at h
      obtain ⟨x, hx, hfx⟩ := ih h
      exact ⟨x, by simp [hx], hfx⟩

theorem altAtoms_length :
    ∀ {a : Str} {atoms : List RAtom}, altAtoms a = some atoms →
      atoms.length = a.length := by
  intro a
  induction a with
  | nil =>
    intro atoms h
    simp only [altAtoms, Option.some.injEq] at h
    rw [← h]
    rfl
  | cons c rest ih =>
    intro atoms h
    rw [altAtoms] at h
    cases hc : charAtom c with
    | none => rw [hc] at h; exact Option.noConfusion h
    | some a0 =>
      rw [hc] at h
      cases hr : altAtoms rest with
      | none => rw [hr] at h; exact Option.noConfusion h
      | some as0 =>
        rw [hr] at h
        simp only [Option.some_bind, Option.map_some', Option.some.injEq] at h
        rw [← h]
        simp [ih hr]

theorem altConsume_sound :
    ∀ {atoms : List RAtom} {s cap r : Str}, altConsume atoms s = some (cap, r) →
      s = cap ++ r ∧ List.Forall₂ (fun t ch => atomMatches t ch = true) atoms cap := by
  intro atoms
  induction atoms with
  | nil =>
    intro s cap r h
    simp only [altConsume, Option.some.injEq, Prod.mk.injEq] at h
    obtain ⟨rfl, rfl⟩ := h
    exact ⟨rfl, List.Forall₂.nil⟩
  | cons a as ih =>
    intro s cap r h
    cases s with
    | nil => exact Option.noConfusion h
    | cons c s' =>
      rw [altConsume] at h
      split at h
      next hm =>
        cases hrec : altConsume as s' with
        | none => rw [hrec] at h; exact Option.noConfusion h
        | some pr =>
          rw [hrec] at h
          simp only [Option.map_some', Option.some.injEq, Prod.mk.injEq] at h
          obtain ⟨rfl, rfl⟩ := h
          obtain ⟨hsplit, hforall⟩ := ih hrec
          exact ⟨by rw [List.cons_append, ← hsplit], List.Forall₂.cons hm hforall⟩
      next => exact Option.noConfusion h

theorem altMatch_length {a cap : Str} (h : AltMatch a cap) :
    cap.length = a.length := by
  obtain ⟨atoms, hat, hf⟩ := h
  rw [← hf.length_eq]
  exact altAtoms_length hat

theorem groupMatches_mem {alts : List Str} {s c r : Str}
    (h : (c, r) ∈ groupMatches alts s) : GroupFits alts c ∧ s = c ++ r := by
  unfold groupMatches at h
  rw [List.mem_filterMap] at h
  obtain ⟨a, ha, hbind⟩ := h
  cases hat : altAtoms a with
  | none => rw [hat] at hbind; exact Option.noConfusion hbind
  | some atoms =>
    rw [hat] at hbind
    rw [Option.some_bind] at hbind
    obtain ⟨hsplit, hforall⟩ := altConsume_sound hbind
    exact ⟨⟨a, ha, atoms, hat, hforall⟩, hsplit⟩

theorem patMatches_mem :
    ∀ {groups : List (List Str)} {s c r : Str}, (c, r) ∈ patMatches groups s →
      s = c ++ r ∧ PatLangMem groups c := by
  intro groups
  induction groups with
  | nil =>
    intro s c r h
    simp only [patMatches, List.mem_singleton, Prod.mk.injEq] at h
    obtain ⟨rfl, rfl⟩ := h
    exact ⟨rfl, [], List.Forall₂.nil, rfl⟩
  | cons g gs ih =>
    intro s c r h
    simp only [patMatches, List.mem_flatMap, List.mem_map] at h
    obtain ⟨cr, hcr, dr, hdr, heq⟩ := h
    obtain ⟨hc, hr⟩ : cr.1 ++ dr.1 = c ∧ dr.2 = r := by
      simpa [Prod.ext_iff] using heq
    obtain ⟨hmem, hsplit⟩ := groupMatches_mem (by simpa using hcr)
    obtain ⟨hsplit2, picks, hforall, hflat⟩ := ih (by simpa using hdr)
    refine ⟨?_, cr.1 :: picks, List.Forall₂.cons hmem hforall, ?_⟩
    · rw [hsplit, hsplit2, ← hc, ← hr, List.append_assoc]
    · rw [← hc, hflat]
      simp

theorem wildLens_mem {s : Str} {len : Nat} (h : len ∈ wildLens s) :
    1 ≤ len ∧ len ≤ s.length := by
  unfold wildLens at h
  simp only [List.mem_reverse, List.mem_map, List.mem_range] at h
  obtain ⟨k, hk, rfl⟩ := h
  omega

theorem matchSeq_sound :
    ∀ {specs : List PatSpec} {s : Str} {caps : List Str},
      matchSeq specs s = some caps →
      caps.flatten = s ∧ List.Forall₂ SpecFits caps specs := by
  intro specs
  induction specs with
  | nil =>
    intro s caps h
    simp only [matchSeq] at h
    split at h
    next hs =>
      simp only [Option.some.injEq] at h
      subst hs
      rw [← h]
      exact ⟨rfl, List.Forall₂.nil⟩
    next => exact Option.noConfusion h
  | cons spec rest ih =>
    intro s caps h
    cases spec with
    | pat g =>
      simp only [matchSeq] at h
      obtain ⟨cr, hcr, hmap⟩ := findSome?_eq_some_mem h
      cases hms : matchSeq rest cr.2 with
      | none => rw [hms] at hmap; exact Option.noConfusion hmap
      | some caps' =>
        rw [hms] at hmap
        simp only [Option.map_some', Option.some.injEq] at hmap
        subst hmap
        obtain ⟨hflat, hfits⟩ := ih hms
        obtain ⟨hsplit, hlang⟩ := patMatches_mem (by simpa using hcr)
        refine ⟨?_, List.Forall₂.cons hlang hfits⟩
        rw [List.flatten_cons, hflat, hsplit]
    | wild =>
      simp only [matchSeq] at h
      obtain ⟨len, hlen, hmap⟩ := findSome?_eq_some_mem h
      cases hms : matchSeq rest (s.drop len) with
      | none => rw [hms] at hmap; exact Option.noConfusion hmap
      | some caps' =>
        rw [hms] at hmap
        simp only [Option.map_some', Option.some.injEq] at hmap
        subst hmap
        obtain ⟨hflat, hfits⟩ := ih hms
        obtain ⟨h1, h2⟩ := wildLens_mem hlen
        have htake : s.take len ≠ [] := by
          have : (s.take len).length = min len s.length := List.length_take ..
          intro hnil
          rw [hnil] at this
          simp at this
          omega
        refine ⟨?_, List.Forall₂.cons htake hfits⟩
        rw [List.flatten_cons, hflat, List.take_append_drop]

theorem toFuriganaBlocksCheck_sound {kana : Str} {blocks : List FuriBlock} {out : Str}
    (h : toFuriganaBlocksCheck kana blocks = some out) :
    ∃ idx caps,
      (idx = 0 ∨ ((blocks.getD (idx - 1) default).isKanji = true ∧ idx - 1 < blocks.length)) ∧
      matchSeq (specsFor blocks idx) kana = some caps ∧
      out = renderBlocks true (blocks.zip caps) := by
  unfold toFuriganaBlocksCheck at h
  split at h
  next =>
    obtain ⟨idx, hidx, hbody⟩ := findSome?_eq_some_mem h
    rw [List.mem_range] at hidx
    split at hbody
    next hcond => exact Option.noConfusion hbody
    next hcond =>
      push_neg at hcond
      cases hms : matchSeq (specsFor blocks idx) kana with
      | none => rw [hms] at hbody; exact Option.noConfusion hbody
      | some caps =>
        rw [hms] at hbody
        simp only [Option.map_some', Option.some.injEq] at hbody
        refine ⟨idx, caps, ?_, hms, hbody.symm⟩
        by_cases h0 : idx = 0
        · exact Or.inl h0
        · refine Or.inr ⟨?_, by omega⟩
          have := hcond h0
          cases hb : (blocks.getD (idx - 1) default).isKanji
          · exact absurd hb this
          · rfl
  next => exact Option.noConfusion h

theorem specsFor_rel_aux :
    ∀ (bs : List FuriBlock) (n idx : Nat),
      (∀ i, i < bs.length → n + i + 1 = idx → (bs.getD i default).isKanji = true) →
      List.Forall₂
        (fun b spec => spec = PatSpec.pat b.pat ∨ (spec = PatSpec.wild ∧ b.isKanji = true))
        bs ((List.enumFrom n bs).map fun ib =>
          if ib.1 + 1 = idx then PatSpec.wild else PatSpec.pat ib.2.pat) := by
  intro bs
  induction bs with
  | nil => intro n idx _; exact List.Forall₂.nil
  | cons b bs ih =>
    intro n idx h
    simp only [List.enumFrom, List.map_cons]
    refine List.Forall₂.cons ?_ (ih (n + 1) idx ?_)
    · by_cases hcase : n + 1 = idx
      · rw [if_pos hcase]
        exact Or.inr ⟨rfl, h 0 (by simp) (by omega)⟩
      · rw [if_neg hcase]
        exact Or.inl rfl
    · intro i hi heq
      have := h (i + 1) (by simp; omega) (by omega)
      simpa using this

theorem specsFor_rel (blocks : List FuriBlock) (idx : Nat)
    (hidx : idx = 0 ∨
      ((blocks.getD (idx - 1) default).isKanji = true ∧ idx - 1 < blocks.length)) :
    List.Forall₂
      (fun b spec => spec = PatSpec.pat b.pat ∨ (spec = PatSpec.wild ∧ b.isKanji = true))
      blocks (specsFor blocks idx) := by
  refine specsFor_rel_aux blocks 0 idx ?_
  intro i hi heq
  rcases hidx with h0 | ⟨hk, _⟩
  · omega
  · have : i = idx - 1 := by omega
    subst this
    exact hk

theorem patLangMem_ne_nil {groups : List (List Str)} {c : Str}
    (hne : groups ≠ []) (halts : ∀ g ∈ groups, ∀ a ∈ g, a ≠ [])
    (h : PatLangMem groups c) : c ≠ [] := by
  obtain ⟨picks, hf, rfl⟩ := h
  cases groups with
  | nil => exact absurd rfl hne
  | cons g gs =>
    cases picks with
    | nil => cases hf
    | cons p ps =>
      rw [List.forall₂_cons] at hf
      obtain ⟨a, hag, hmatch⟩ := hf.1
      have hp : p ≠ [] := by
        intro hnil
        have hlen := altMatch_length hmatch
        rw [hnil] at hlen
        have ha := halts g (by simp) a hag
        cases a with
        | nil => exact ha rfl
        | cons x xs => simp at hlen
      cases p with
      | nil => exact absurd rfl hp
      | cons x xs => simp

theorem zip_pairOK :
    ∀ {blocks : List FuriBlock} {caps : List Str} {specs : List PatSpec},
      List.Forall₂
        (fun b spec => spec = PatSpec.pat b.pat ∨ (spec = PatSpec.wild ∧ b.isKanji = true))
        blocks specs →
      List.Forall₂ SpecFits caps specs →
      (∀ b ∈ blocks, BlockWF b) → (∀ c ∈ caps, PlainStr c) →
      ∀ p ∈ blocks.zip caps, PairOK p := by
  intro blocks
  induction blocks with
  | nil => intro caps specs _ _ _ _ p hp; simp at hp
  | cons b bs ih =>
    intro caps specs h1 h2 hwf hplain p hp
    cases specs with
    | nil => cases h1
    | cons spec specs =>
      cases caps with
      | nil => cases h2
      | cons c cs =>
        rw [List.forall₂_cons] at h1 h2
        rw [List.zip_cons_cons, List.mem_cons] at hp
        rcases hp with rfl | hp
        · obtain ⟨hbt, hbp, hbg, hba, hbl⟩ := hwf b (by simp)
          have hcp : PlainStr c := hplain c (by simp)
          refine ⟨hbt, hbp, ?_, ?_⟩
          · intro _
            rcases h1.1 with hpat | ⟨hwild, _⟩
            · have := h2.1
              rw [hpat] at this
              exact ⟨patLangMem_ne_nil hbg hba this, hcp⟩
            · have := h2.1
              rw [hwild] at this
              exact ⟨this, hcp⟩
          · intro hnk
            rcases h1.1 with hpat | ⟨_, hk⟩
            · have := h2.1
              rw [hpat] at this
              exact hbl hnk c this
            · rw [hnk] at hk; exact Bool.noConfusion hk
        · exact ih h1.2 h2.2 (fun x hx => hwf x (by simp [hx]))
            (fun x hx => hplain x (by simp [hx])) p hp

theorem headSafe_render :
    ∀ (pairs : List (FuriBlock × Str)), (∀ p ∈ pairs, PairOK p) →
      HeadSafe (renderBlocks false pairs) := by
  intro pairs
  induction pairs with
  | nil => intro _; simp [HeadSafe, renderBlocks]
  | cons p rest ih =>
    intro hok
    obtain ⟨b, cap⟩ := p
    have hpok := hok (b, cap) (by simp)
    cases hk : b.isKanji
    · unfold HeadSafe
      simp only [renderBlocks, hk, Bool.false_eq_true, if_false]
      rw [dropWhile_append_plain hpok.2.1]
      exact ih (fun q hq => hok q (by simp [hq]))
    · have hshape : renderBlocks false ((b, cap) :: rest) =
          ' ' :: (b.text ++ '[' :: (cap ++ ']' :: renderBlocks true rest)) := by
        simp [renderBlocks, hk, List.append_assoc]
      unfold HeadSafe
      rw [hshape, List.dropWhile_cons, if_neg (by decide)]
      simp

theorem replaceFuri_renderBlocks (proj : Str → Str → Str) :
    ∀ (pairs : List (FuriBlock × Str)) (preceded : Bool), (∀ p ∈ pairs, PairOK p) →
      replaceFuri proj (renderBlocks preceded pairs) =
        (pairs.map (segProj proj)).flatten := by
  intro pairs
  induction pairs with
  | nil => intro preceded _; simp [renderBlocks, replaceFuri_nil]
  | cons p rest ih =>
    intro preceded hok
    obtain ⟨b, cap⟩ := p
    have hpok := hok (b, cap) (by simp)
    obtain ⟨htne, htp, hkan, hnon⟩ := hpok
    have hrest : ∀ q ∈ rest, PairOK q := fun q hq => hok q (by simp [hq])
    cases hk : b.isKanji
    · have hshape : renderBlocks preceded ((b, cap) :: rest) =
          b.text ++ renderBlocks false rest := by
        simp [renderBlocks, hk]
      rw [hshape, replaceFuri_plain_run proj htp (headSafe_render rest hrest),
        ih false hrest]
      simp [segProj, hk]
    · have hc := hkan hk
      cases preceded
      · have hshape : renderBlocks false ((b, cap) :: rest) =
            ' ' :: (b.text ++ '[' :: (cap ++ ']' :: renderBlocks true rest)) := by
          simp [renderBlocks, hk, List.append_assoc]
        rw [hshape,
          replaceFuri_of_step proj (furiScanStep_space_group htne htp hc.1 hc.2),
          ih true hrest]
        simp [segProj, hk]
      · have hshape : renderBlocks true ((b, cap) :: rest) =
            b.text ++ '[' :: (cap ++ ']' :: renderBlocks true rest) := by
          simp [renderBlocks, hk, List.append_assoc]
        rw [hshape,
          replaceFuri_of_step proj (furiScanStep_group htne htp hc.1 hc.2),
          ih true hrest]
        simp [segProj, hk]

theorem map_segProj_kanji :
    ∀ (bs : List FuriBlock) (caps : List Str), bs.length = caps.length →
      (bs.zip caps).map (segProj fun kj _ => kj) = bs.map FuriBlock.text := by
  intro bs
  induction bs with
  | nil => intro caps _; simp
  | cons b bs ih =>
    intro caps h
    cases caps with
    | nil => simp at h
    | cons c cs =>
      simp only [List.zip_cons_cons, List.map_cons]
      rw [ih cs (by simpa using h)]
      cases hk : b.isKanji <;> simp [segProj, hk]

theorem map_segProj_kana :
    ∀ (bs : List FuriBlock) (caps : List Str), bs.length = caps.length →
      (∀ p ∈ bs.zip caps, PairOK p) →
      (bs.zip caps).map (segProj fun _ kn => kn) = caps := by
  intro bs
  induction bs with
  | nil => intro caps h _; simp at h ⊢; exact List.length_eq_zero.mp h.symm
  | cons b bs ih =>
    intro caps h hok
    cases caps with
    | nil => simp at h
    | cons c cs =>
      simp only [List.zip_cons_cons, List.map_cons]
      rw [ih cs (by simpa using h) (fun p hp => hok p (by simp [hp]))]
      have hpok := hok (b, c) (by simp)
      cases hk : b.isKanji
      · simp only [segProj, hk, Bool.false_eq_true, if_false, List.cons.injEq]
        exact ⟨(hpok.2.2.2 hk).symm, trivial⟩
      · simp [segProj, hk]

theorem toFuriganaBlocksCheck_roundtrip {kana s : Str} {bs : List FuriBlock}
    (hR : PlainStr kana) (hwf : ∀ b ∈ bs, BlockWF b)
    (h : toFuriganaBlocksCheck kana bs = some s) :
    toKanji s = textsJoin bs ∧ toKana s = kana := by
  obtain ⟨idx, caps, hguard, hms, hout⟩ := toFuriganaBlocksCheck_sound h
  obtain ⟨hflat, hfits⟩ := matchSeq_sound hms
  have hlen : bs.length = caps.length := by
    have h1 := hfits.length_eq
    have h2 : (specsFor bs idx).length = bs.length := by simp [specsFor]
    omega
  have hrel := specsFor_rel bs idx hguard
  have hplain : ∀ c ∈ caps, PlainStr c := by
    intro c hc x hx
    apply hR
    rw [← hflat]
    exact List.mem_flatten.mpr ⟨c, hc, hx⟩
  have hpairs := zip_pairOK hrel hfits hwf hplain
  subst hout
  constructor
  · unfold toKanji
    rw [replaceFuri_renderBlocks _ _ true hpairs, map_segProj_kanji bs caps hlen]
    rfl
  · unfold toKana
    rw [replaceFuri_renderBlocks _ _ true hpairs, map_segProj_kana bs caps hlen hpairs,
      hflat]

theorem lookupReadings_mem {tbl : ReadingsTable} {c : Char} {rs : List Str}
    (h : lookupReadings tbl c = some rs) : (c, rs) ∈ tbl := by
  induction tbl with
  | nil => exact Option.noConfusion h
  | cons p rest ih =>
    obtain ⟨k, v⟩ := p
    rw [lookupReadings] at h
    split at h
    next heq =>
      simp only [Option.some.injEq] at h
      subst heq h
      exact List.mem_cons_self ..
    next => exact List.mem_cons_of_mem _ (ih h)

theorem mkBlocks_WF {tbl : ReadingsTable} {kanji : Str} (hK : PlainStr kanji)
    (hKL : ∀ c ∈ kanji, isRegexLit c = true)
    (hT : ∀ p ∈ tbl, p.2 ≠ [] ∧ ∀ r ∈ p.2, r ≠ []) :
    ∀ b ∈ mkBlocks tbl kanji, BlockWF b := by
  intro b hb
  unfold mkBlocks at hb
  rw [List.mem_map] at hb
  obtain ⟨c, hc, hbeq⟩ := hb
  have hcp : isPlain c = true := hK c hc
  cases hlk : lookupReadings tbl c with
  | some rs =>
    rw [hlk] at hbeq
    dsimp only at hbeq
    obtain ⟨hrs, hralts⟩ := hT (c, rs) (lookupReadings_mem hlk)
    have hemp : rs.isEmpty = false := by
      cases rs with
      | nil => exact absurd rfl hrs
      | cons x xs => rfl
    rw [← hbeq]
    refine ⟨by simp, ?_, by simp, ?_, ?_⟩
    · intro x hx
      rw [List.mem_singleton] at hx
      rw [hx]
      exact hcp
    · intro g hg a ha
      rw [hemp] at hg
      simp only [Bool.false_eq_true, if_false, List.mem_singleton] at hg
      rw [hg] at ha
      exact hralts a ha
    · intro hcontra
      simp at hcontra
  | none =>
    rw [hlk] at hbeq
    dsimp only at hbeq
    rw [← hbeq]
    refine ⟨by simp, ?_, by simp, ?_, ?_⟩
    · intro x hx
      rw [List.mem_singleton] at hx
      rw [hx]
      exact hcp
    · intro g hg a ha
      rw [List.mem_singleton] at hg
      rw [hg, List.mem_singleton] at ha
      rw [ha]
      simp
    · intro _ x hx
      obtain ⟨picks, hf, rfl⟩ := hx
      cases picks with
      | nil => cases hf
      | cons p ps =>
        rw [List.forall₂_cons] at hf
        have hps : ps = [] := by
          cases hps2 : ps
          · rfl
          · rw [hps2] at hf; cases hf.2
        have hp : p = [c] := by
          obtain ⟨a, hag, hmatch⟩ := hf.1
          rw [List.mem_singleton] at hag
          subst hag
          obtain ⟨atoms, hat, hfa⟩ := hmatch
          have hlit : charAtom c = some (RAtom.lit c) := by
            have h0 := hKL c hc
            unfold isRegexLit at h0
            exact of_decide_eq_true h0
          have hat2 : altAtoms [c] = some [RAtom.lit c] := by
            unfold altAtoms
            rw [hlit]
            rfl
          obtain rfl := Option.some.inj (hat2.symm.trans hat)
          rw [List.forall₂_cons_left_iff] at hfa
          obtain ⟨ch, l, h1, h2, rfl⟩ := hfa
          have hl : l = [] := by cases h2; rfl
          have hch : ch = c := by simpa [atomMatches] using h1
          rw [hl, hch]
        rw [hps, hp]
        simp

theorem mkBlocks_texts (tbl : ReadingsTable) (kanji : Str) :
    textsJoin (mkBlocks tbl kanji) = kanji := by
  induction kanji with
  | nil => rfl
  | cons c rest ih =>
    cases hlk : lookupReadings tbl c <;>
      simp only [textsJoin, mkBlocks, List.map_cons, List.flatten_cons, hlk] at ih ⊢ <;>
      rw [ih] <;> rfl

theorem textsJoin_append (l1 l2 : List FuriBlock) :
    textsJoin (l1 ++ l2) = textsJoin l1 ++ textsJoin l2 := by
  simp [textsJoin]

theorem patLangMem_append_split :
    ∀ {p1 p2 : List (List Str)} {c : Str}, PatLangMem (p1 ++ p2) c →
      ∃ c1 c2, PatLangMem p1 c1 ∧ PatLangMem p2 c2 ∧ c = c1 ++ c2 := by
  intro p1
  induction p1 with
  | nil =>
    intro p2 c h
    exact ⟨[], c, ⟨[], List.Forall₂.nil, rfl⟩, h, rfl⟩
  | cons g p1 ih =>
    intro p2 c h
    obtain ⟨picks, hf, rfl⟩ := h
    cases picks with
    | nil => cases hf
    | cons p ps =>
      rw [List.cons_append, List.forall₂_cons] at hf
      obtain ⟨c1, c2, hm1, hm2, heq⟩ := ih ⟨ps, hf.2, rfl⟩
      obtain ⟨picks1, hf1, hc1⟩ := hm1
      refine ⟨p ++ c1, c2, ⟨p :: picks1, List.Forall₂.cons hf.1 hf1, by simp [hc1]⟩,
        hm2, ?_⟩
      rw [List.flatten_cons, heq, List.append_assoc]

theorem BlockWF_merge {l b : FuriBlock} (hl : BlockWF l) (hb : BlockWF b)
    (hk : l.isKanji = b.isKanji) :
    BlockWF ⟨l.text ++ b.text, l.isKanji, l.pat ++ b.pat⟩ := by
  obtain ⟨hlt, hlp, hlg, hla, hll⟩ := hl
  obtain ⟨hbt, hbp, hbg, hba, hbl⟩ := hb
  refine ⟨by simp [hlt], ?_, by simp [hlg], ?_, ?_⟩
  · intro x hx
    rw [List.mem_append] at hx
    rcases hx with hx | hx
    · exact hlp x hx
    · exact hbp x hx
  · intro g hg
    rw [List.mem_append] at hg
    rcases hg with hg | hg
    · exact hla g hg
    · exact hba g hg
  · intro hnk c hc
    obtain ⟨c1, c2, h1, h2, rfl⟩ := patLangMem_append_split hc
    rw [hll hnk c1 h1, hbl (hk ▸ hnk) c2 h2]

theorem getLast?_cons_of_ne_nil {α : Type} {l : List α} (a : α) (h : l ≠ []) :
    (a :: l).getLast? = l.getLast? := by
  cases l with
  | nil => exact absurd rfl h
  | cons x xs => exact List.getLast?_cons_cons ..

theorem mergeLast_ne_nil (out : List FuriBlock) (b : FuriBlock) :
    mergeLast out b ≠ [] := by
  match out with
  | [] => simp [mergeLast]
  | [l] => simp [mergeLast]
  | x :: y :: rest => simp [mergeLast]

theorem mergeLast_props :
    ∀ (out : List FuriBlock) (b : FuriBlock), (∀ x ∈ out, BlockWF x) → BlockWF b →
      (out ≠ [] → lastKind out = some b.isKanji) →
      (∀ x ∈ mergeLast out b, BlockWF x) ∧
      textsJoin (mergeLast out b) = textsJoin out ++ b.text ∧
      lastKind (mergeLast out b) = some b.isKanji := by
  intro out
  match out with
  | [] =>
    intro b _ hb _
    refine ⟨?_, by simp [mergeLast, textsJoin], by simp [mergeLast, lastKind]⟩
    intro x hx
    rw [show mergeLast [] b = [b] from rfl, List.mem_singleton] at hx
    rw [hx]
    exact hb
  | [l] =>
    intro b hout hb hinv
    have hkeq : l.isKanji = b.isKanji := by
      have := hinv (by simp)
      simpa [lastKind] using this
    have hwf := BlockWF_merge (hout l (by simp)) hb hkeq
    refine ⟨?_, by simp [mergeLast, textsJoin], by simp [mergeLast, lastKind, hkeq]⟩
    intro x hx
    rw [show mergeLast [l] b =
      [⟨l.text ++ b.text, l.isKanji, l.pat ++ b.pat⟩] from rfl, List.mem_singleton] at hx
    rw [hx]
    exact hwf
  | x :: y :: rest =>
    intro b hout hb hinv
    have hinv' : (y :: rest : List FuriBlock) ≠ [] → lastKind (y :: rest) = some b.isKanji := by
      intro _
      have := hinv (by simp)
      rwa [lastKind, List.getLast?_cons_cons, ← lastKind] at this
    have ih := mergeLast_props (y :: rest) b (fun z hz => hout z (by simp [hz])) hb hinv'
    refine ⟨?_, ?_, ?_⟩
    · intro z hz
      rw [show mergeLast (x :: y :: rest) b = x :: mergeLast (y :: rest) b from rfl,
        List.mem_cons] at hz
      rcases hz with rfl | hz
      · exact hout z (by simp)
      · exact ih.1 z hz
    · rw [show mergeLast (x :: y :: rest) b = x :: mergeLast (y :: rest) b from rfl]
      have : textsJoin (x :: mergeLast (y :: rest) b) =
          x.text ++ textsJoin (mergeLast (y :: rest) b) := by simp [textsJoin]
      rw [this, ih.2.1]
      simp [textsJoin]
    · rw [show mergeLast (x :: y :: rest) b = x :: mergeLast (y :: rest) b from rfl,
        lastKind, getLast?_cons_of_ne_nil x (mergeLast_ne_nil (y :: rest) b), ← lastKind]
      exact ih.2.2

theorem coalesceFold_props :
    ∀ (rest : List FuriBlock) (preceded : Bool) (out : List FuriBlock),
      (∀ x ∈ out, BlockWF x) → (∀ x ∈ rest, BlockWF x) →
      (out ≠ [] → lastKind out = some preceded) →
      (∀ x ∈ coalesceFold preceded out rest, BlockWF x) ∧
      textsJoin (coalesceFold preceded out rest) = textsJoin out ++ textsJoin rest := by
  intro rest
  induction rest with
  | nil =>
    intro preceded out hout _ _
    exact ⟨hout, by simp [coalesceFold, textsJoin]⟩
  | cons b rest ih =>
    intro preceded out hout hrest hinv
    have hb := hrest b (by simp)
    have hrest' : ∀ x ∈ rest, BlockWF x := fun x hx => hrest x (by simp [hx])
    by_cases hcase : b.isKanji = preceded
    · rw [show coalesceFold preceded out (b :: rest) =
        coalesceFold b.isKanji (mergeLast out b) rest from by
          rw [coalesceFold, if_pos hcase]]
      have hml := mergeLast_props out b hout hb
        (fun hne => by rw [hcase]; exact hinv hne)
      have := ih b.isKanji (mergeLast out b) hml.1 hrest' (fun _ => hml.2.2)
      refine ⟨this.1, ?_⟩
      rw [this.2, hml.2.1]
      simp [textsJoin, List.append_assoc]
    · rw [show coalesceFold preceded out (b :: rest) =
        coalesceFold b.isKanji (out ++ [b]) rest from by
          rw [coalesceFold, if_neg hcase]]
      have hout' : ∀ x ∈ out ++ [b], BlockWF x := by
        intro x hx
        rw [List.mem_append, List.mem_singleton] at hx
        rcases hx with hx | rfl
        · exact hout x hx
        · exact hb
      have hlk : (out ++ [b] : List FuriBlock) ≠ [] →
          lastKind (out ++ [b]) = some b.isKanji := by
        intro _
        rw [lastKind, List.getLast?_concat]
        rfl
      have := ih b.isKanji (out ++ [b]) hout' hrest' hlk
      refine ⟨this.1, ?_⟩
      rw [this.2, textsJoin_append]
      simp [textsJoin, List.append_assoc]

theorem coalesce_props {blocks : List FuriBlock}
    (hwf : ∀ x ∈ blocks, BlockWF x) :
    (∀ x ∈ coalesce blocks, BlockWF x) ∧ textsJoin (coalesce blocks) = textsJoin blocks := by
  cases blocks with
  | nil => exact ⟨by simp [coalesce], rfl⟩
  | cons b0 bs =>
    have := coalesceFold_props (b0 :: bs) (!b0.isKanji) []
      (by simp) hwf (by simp)
    exact ⟨this.1, by rw [show coalesce (b0 :: bs) =
      coalesceFold (!b0.isKanji) [] (b0 :: bs) from rfl, this.2]; rfl⟩

end AnkiDeck
